import Mathlib

/-!
# Edge sorting by source vertex: counting sort and radix sort

A shallow embedding of `src/ssudher/src/sort.c`.

* A `struct Edge` is a record of two C `int`s, modelled as `Int`.
* A buffer (`struct Edge *`, `int *`) is a `List`; its length is the allocated
  capacity.  Every indexed read and write goes through `rd` and `wr`, which
  return `none` when the index is outside the buffer, so a run that would
  index out of bounds evaluates to `none`.
* A `for` loop is `forLoop body k`: the first `k` iterations of the loop, in
  program order.
* The multiplication in `grab_the_digit` wraps to 32-bit two's complement
  (`wrap32`).  The counters of the count tables never exceed `numEdges`, which
  is itself an `int`, so they are kept exact.
* The two `parallel for` loops of `my_countSort` are executed statement by
  statement on the variables their threads share, in the order a schedule gives;
  the thread ids are `Fin 4` (`omp_get_thread_num()` under `num_threads(4)`).
  The executions that run one iteration at a time are a special case
  (`seqSchedule`).
-/

namespace EdgeSort

/-! ## Data model -/

/-- The `struct Edge` of `edgelist.h`, as used by `sort.c`: two `int` fields. -/
structure Edge where
  src : Int
  dest : Int
deriving DecidableEq, Repr

/-- The two caller-visible buffers after a sort returns. -/
structure Buffers where
  edges_sorted : List Edge
  edges : List Edge
deriving DecidableEq, Repr

/-- State of a placement loop: the count table and the output buffer. -/
structure PlaceState where
  vertex_cnt : List Int
  edges_sorted : List Edge
deriving DecidableEq, Repr

/-! ## Memory access and loops -/

/-- Indexed read `a[i]`; `none` when `i` is outside the buffer. -/
def rd {α : Type} (a : List α) (i : Int) : Option α :=
  if 0 ≤ i then a[i.toNat]? else none

/-- Indexed write `a[i] = v`; `none` when `i` is outside the buffer. -/
def wr {α : Type} (a : List α) (i : Int) (v : α) : Option (List α) :=
  if 0 ≤ i ∧ i.toNat < a.length then some (a.set i.toNat v) else none

/-- The first `k` iterations of a loop whose `j`-th iteration (counted from 0)
runs `body j` on the current state. -/
def forLoop {σ : Type} (body : Nat → σ → Option σ) : Nat → σ → Option σ
  | 0, s => some s
  | k + 1, s => (forLoop body k s).bind (body k)

/-- Reduction of a value to the range of a 32-bit signed `int`. -/
def wrap32 (x : Int) : Int := (x + 2147483648) % 4294967296 - 2147483648

/-! ## countSortEdgesBySource (sort.c lines 11-48) -/

/-- Body of the counting loop, lines 27-30: `key = edges[i].src; vertex_cnt[key]++`.
The key is read through `key`, which is `Edge.src` here. -/
def countStep (key : Edge → Int) (edges : List Edge) (i : Nat) (vertex_cnt : List Int) :
    Option (List Int) := do
  let e ← rd edges i
  let c ← rd vertex_cnt (key e)
  wr vertex_cnt (key e) (c + 1)

/-- Body of the cumulative-sum loop, lines 33-35 and 107-109, for `i = j + 1`:
`vertex_cnt[i] += vertex_cnt[i - 1]`. -/
def cumulStep (j : Nat) (vertex_cnt : List Int) : Option (List Int) := do
  let a ← rd vertex_cnt ((j : Int) + 1)
  let b ← rd vertex_cnt ((j : Int) + 1 - 1)
  wr vertex_cnt ((j : Int) + 1) (a + b)

/-- Body of the placement loop, lines 38-43 and 111-117.  In iteration `j` the
loop variable is `i = numEdges - 1 - j`:
`key = ...; pos = vertex_cnt[key] - 1; edges_sorted[pos] = edges[i]; vertex_cnt[key]--`. -/
def placeStep (key : Edge → Int) (edges : List Edge) (numEdges : Int) (j : Nat)
    (st : PlaceState) : Option PlaceState := do
  let i : Int := numEdges - 1 - j
  let e ← rd edges i
  let c ← rd st.vertex_cnt (key e)
  let pos : Int := c - 1
  let out ← wr st.edges_sorted pos e
  let c2 ← rd st.vertex_cnt (key e)
  let cnt ← wr st.vertex_cnt (key e) (c2 - 1)
  pure ⟨cnt, out⟩

/-- Lines 19-35 of `countSortEdgesBySource`: the count table after allocation,
zeroing, counting and the cumulative sum. -/
def countSortTable (edges : List Edge) (numVertices numEdges : Int) : Option (List Int) := do
  let vertex_cnt := List.replicate numVertices.toNat (0 : Int)
  let vertex_cnt ← forLoop (countStep (fun e => e.src) edges) numEdges.toNat vertex_cnt
  forLoop cumulStep (numVertices - 1).toNat vertex_cnt

/-- Function `countSortEdgesBySource`. -/
def countSortEdgesBySource (edges_sorted edges : List Edge) (numVertices numEdges : Int) :
    Option Buffers := do
  let vertex_cnt ← countSortTable edges numVertices numEdges
  let st ← forLoop (placeStep (fun e => e.src) edges numEdges) numEdges.toNat
    ⟨vertex_cnt, edges_sorted⟩
  pure ⟨st.edges_sorted, edges⟩

/-- The value of `pos` in the iteration of the placement loop of
`countSortEdgesBySource` that handles input index `i`: the loop is run up to
that iteration and `vertex_cnt[edges[i].src] - 1` is read off. -/
def countSortPos (edges_sorted edges : List Edge) (numVertices numEdges : Int) (i : Nat) :
    Option Int := do
  let vertex_cnt ← countSortTable edges numVertices numEdges
  let st ← forLoop (placeStep (fun e => e.src) edges numEdges) (numEdges.toNat - 1 - i)
    ⟨vertex_cnt, edges_sorted⟩
  let e ← rd edges i
  let c ← rd st.vertex_cnt e.src
  pure (c - 1)

/-! ## grab_the_digit and transfer (sort.c lines 50-72) -/

/-- The loop of `grab_the_digit`, lines 54-57: `k` times `mod = mod * 10`. -/
def modLoop : Nat → Int
  | 0 => 1
  | k + 1 => wrap32 (modLoop k * 10)

/-- Function `grab_the_digit`: the loop runs for `i = 1 .. dig - 1`; C division and
remainder truncate toward zero.  The divisor can only be `0` after the product has
left the range of an `int`; `Int.tdiv` then yields `0`. -/
def grab_the_digit (num dig : Int) : Int :=
  ((num.tdiv (modLoop (dig - 1).toNat)).tmod 10)

/-- Body of the loop of `transfer`, lines 67-71.  Iteration `i` touches `transf[i]`
only and `i` is private, so the order of the iterations does not matter. -/
def transferStep (org : List Edge) (i : Nat) (transf : List Edge) : Option (List Edge) := do
  let o ← rd org i
  let _ ← rd transf i
  wr transf i ⟨o.src, o.dest⟩

/-- Function `transfer`: the buffer `transf` after the call. -/
def transfer (org transf : List Edge) (numEdges : Int) : Option (List Edge) :=
  forLoop (transferStep org) numEdges.toNat transf

/-! ## my_countSort (sort.c lines 74-120)

The two `parallel for` loops name `i` alone in their `private` clause.  The variables
`key` and `dig` (lines 78-80) and `s` and `t` (lines 93-94) are declared before the loops,
so the four threads share them, as they share the tables.  An execution of such a loop
is therefore given statement by statement: each statement runs atomically, and a schedule
says in which order the statements of the threads run. -/

/-- The variables the threads of the counting loop share, lines 78-91. -/
structure CountShared where
  dig : Int
  key : Int
  vertex_cnt_t : List Int
deriving DecidableEq, Repr

/-- The three statements of the body of the counting loop, lines 88-90:
`dig = grab_the_digit(edges[i].src, digit)`, `key = dig` and
`vertex_cnt_t[(10*num_thread)+key]++`. -/
inductive CountStmt where
  | grab
  | copy
  | incr
deriving DecidableEq, Repr

/-- One statement of iteration `i`, executed by thread `num_thread`, on the shared
variables. -/
def countStmtStep (edges : List Edge) (digit : Int) (num_thread : Fin 4) (i : Nat) :
    CountStmt → CountShared → Option CountShared
  | CountStmt.grab, s => do
    let e ← rd edges i
    pure { s with dig := grab_the_digit e.src digit }
  | CountStmt.copy, s => pure { s with key := s.dig }
  | CountStmt.incr, s => do
    let c ← rd s.vertex_cnt_t (10 * (num_thread.val : Int) + s.key)
    let t ← wr s.vertex_cnt_t (10 * (num_thread.val : Int) + s.key) (c + 1)
    pure { s with vertex_cnt_t := t }

/-- An execution of the counting loop as a sequence of statements, each tagged with the
thread that runs it and the iteration it belongs to. -/
def runCountStmts (edges : List Edge) (digit : Int) :
    List (Fin 4 × Nat × CountStmt) → CountShared → Option CountShared
  | [], s => some s
  | (t, i, c) :: rest, s =>
    (countStmtStep edges digit t i c s).bind (runCountStmts edges digit rest)

/-- The statements of the body of the reduction loop, lines 99-104: `s = 0`, `t = 0`,
the test `t < num_of_threads`, `s = s + vertex_cnt_t[(t*10)+i]`, `t++` and
`vertex_cnt[i] = s`. -/
inductive RedStmt where
  | zeroS
  | initT
  | test
  | add
  | incT
  | store
deriving DecidableEq, Repr

/-- The variables the threads of the reduction loop share, lines 82 and 93-105. -/
structure RedShared where
  s : Int
  t : Int
  vertex_cnt : List Int
deriving DecidableEq, Repr

/-- One statement of iteration `i` of the reduction loop on the shared variables: the
new values, and the statement that iteration runs next (`none` after the store, which
ends the iteration). -/
def redStmtStep (vertex_cnt_t : List Int) (i : Nat) :
    RedStmt → RedShared → Option (RedShared × Option RedStmt)
  | RedStmt.zeroS, sh => some ({ sh with s := 0 }, some RedStmt.initT)
  | RedStmt.initT, sh => some ({ sh with t := 0 }, some RedStmt.test)
  | RedStmt.test, sh => some (sh, some (if sh.t < 4 then RedStmt.add else RedStmt.store))
  | RedStmt.add, sh => do
    let v ← rd vertex_cnt_t (sh.t * 10 + (i : Int))
    pure ({ sh with s := sh.s + v }, some RedStmt.incT)
  | RedStmt.incT, sh => some ({ sh with t := sh.t + 1 }, some RedStmt.test)
  | RedStmt.store, sh => do
    let vc ← wr sh.vertex_cnt (i : Int) sh.s
    pure ({ sh with vertex_cnt := vc }, none)

/-- A thread of the reduction loop: the iterations it still has to run, the first of
which is in progress, and the statement it runs next. -/
structure RedThread where
  todo : List Nat
  next : RedStmt
deriving DecidableEq, Repr

/-- State of an execution of the reduction loop. -/
structure RedState where
  shared : RedShared
  threads : List RedThread
deriving DecidableEq, Repr

/-- A thread after one of its statements: it goes on inside the iteration, or starts
its next one. -/
def redAdvance (th : RedThread) : Option RedStmt → RedThread
  | some nx => ⟨th.todo, nx⟩
  | none => ⟨th.todo.tail, RedStmt.zeroS⟩

/-- Thread `τ` runs its next statement; a thread with nothing left to do does nothing. -/
def redStep (vertex_cnt_t : List Int) (τ : Nat) (st : RedState) : Option RedState :=
  match st.threads[τ]? with
  | none => some st
  | some th =>
    match th.todo with
    | [] => some st
    | i :: _ =>
      (redStmtStep vertex_cnt_t i th.next st.shared).map fun r =>
        ⟨r.1, st.threads.set τ (redAdvance th r.2)⟩

/-- An execution of the reduction loop: the list names, step by step, the thread
that runs its next statement. -/
def runRedStmts (vertex_cnt_t : List Int) : List Nat → RedState → Option RedState
  | [], st => some st
  | τ :: rest, st => (redStep vertex_cnt_t τ st).bind (runRedStmts vertex_cnt_t rest)

/-- The reduction loop at its start: `vertex_cnt` is all zero (line 82) and thread `k`
is about to run the iterations `chunks[k]`. -/
def redInit (chunks : List (List Nat)) : RedState :=
  ⟨⟨0, 0, List.replicate 10 0⟩, chunks.map fun c => ⟨c, RedStmt.zeroS⟩⟩

/-- What the OpenMP runtime decides in one call of `my_countSort`: the order of the
statements of the counting loop, the iterations of the reduction loop each thread
runs, and the order of the statements of the reduction loop. -/
structure PassSchedule where
  count : List (Fin 4 × Nat × CountStmt)
  chunks : List (List Nat)
  reduce : List Nat
deriving DecidableEq, Repr

/-- Function `my_countSort`, one digit pass of the radix sort, under a schedule of its
two parallel loops.  The cumulative sum and the placement loop (lines 107-117) are
sequential code. -/
def my_countSort (sched : PassSchedule) (edges_sorted edges : List Edge)
    (numVertices numEdges digit : Int) : Option Buffers := do
  let _ := numVertices
  let cs ← runCountStmts edges digit sched.count ⟨0, 0, List.replicate 40 0⟩
  let rs ← runRedStmts cs.vertex_cnt_t sched.reduce (redInit sched.chunks)
  let vertex_cnt ← forLoop cumulStep 9 rs.shared.vertex_cnt
  let st ← forLoop (placeStep (fun e => grab_the_digit e.src digit) edges numEdges)
    numEdges.toNat ⟨vertex_cnt, edges_sorted⟩
  let edges2 ← transfer st.edges_sorted edges numEdges
  pure ⟨st.edges_sorted, edges2⟩

/-! ## radixSortEdgesBySource (sort.c lines 134-151) -/

/-- The `while (n > 0)` loop of lines 140-144, with at most `fuel` iterations. -/
def digitsLoop : Nat → Int → Nat → Nat
  | 0, _, total_digits => total_digits
  | fuel + 1, n, total_digits =>
    if n > 0 then digitsLoop fuel (n.tdiv 10) (total_digits + 1) else total_digits

/-- The value of `total_digits` after the `while` loop.  Each iteration makes a
positive `n` smaller, so `numVertices` iterations are enough. -/
def totalDigits (numVertices : Int) : Nat :=
  digitsLoop numVertices.toNat numVertices 0

/-- Body of the pass loop, lines 147-150: iteration `j` runs with `digi = j + 1`.
Pass `digi` runs under the schedule `sched digi`. -/
def passStep (sched : Nat → PassSchedule) (numVertices numEdges : Int) (j : Nat)
    (b : Buffers) : Option Buffers :=
  my_countSort (sched (j + 1)) b.edges_sorted b.edges numVertices numEdges ((j : Int) + 1)

/-- Function `radixSortEdgesBySource`. -/
def radixSortEdgesBySource (sched : Nat → PassSchedule) (edges_sorted edges : List Edge)
    (numVertices numEdges : Int) : Option Buffers :=
  forLoop (passStep sched numVertices numEdges) (totalDigits numVertices) ⟨edges_sorted, edges⟩

/-! ## Executions of the parallel loops -/

/-- The statements of iteration `i` of the counting loop on thread `t`, in program
order. -/
def iterStmts (t : Fin 4) (i : Nat) : List (Fin 4 × Nat × CountStmt) :=
  [(t, i, CountStmt.grab), (t, i, CountStmt.copy), (t, i, CountStmt.incr)]

/-- The iterations thread `t` runs in an execution of the counting loop, in the order
it starts them. -/
def threadIters (t : Fin 4) (ev : List (Fin 4 × Nat × CountStmt)) : List Nat :=
  (ev.filter fun e => decide (e.1 = t ∧ e.2.2 = CountStmt.grab)).map fun e => e.2.1

/-- Whether `ev` is an execution of the counting loop over the iterations
`0 .. n-1`: every thread runs the statements of each of its iterations in program
order, one iteration after the other, and every iteration is run by exactly one thread. -/
def isCountExecution (n : Nat) (ev : List (Fin 4 × Nat × CountStmt)) : Bool :=
  ([0, 1, 2, 3] : List (Fin 4)).all (fun t =>
    decide (ev.filter (fun e => decide (e.1 = t)) = (threadIters t ev).flatMap (iterStmts t))) &&
  decide ((([0, 1, 2, 3] : List (Fin 4)).flatMap fun t => threadIters t ev).Perm (List.range n))

/-- Whether `chunks` hands each of the iterations `0 .. 9` of the reduction loop to
exactly one of the four threads. -/
def isChunking (chunks : List (List Nat)) : Bool :=
  decide (chunks.length = 4) && decide (chunks.flatten.Perm (List.range 10))

/-- Whether a run of the reduction loop is complete: it stopped at an out-of-range
access, or every thread has finished its iterations. -/
def redComplete : Option RedState → Bool
  | none => true
  | some st => st.threads.all fun th => th.todo.isEmpty

/-- Whether `p` describes an execution of the two parallel loops of one call of
`my_countSort` with `numEdges = n`. -/
def isPassExecution (edges : List Edge) (digit : Int) (n : Nat) (p : PassSchedule) : Bool :=
  isCountExecution n p.count && isChunking p.chunks &&
  match runCountStmts edges digit p.count ⟨0, 0, List.replicate 40 0⟩ with
  | none => true
  | some cs => redComplete (runRedStmts cs.vertex_cnt_t p.reduce (redInit p.chunks))

/-! ### Executions that run one iteration at a time -/

/-- The counting loop run one iteration at a time, in index order, iteration `i` on
thread `tid i`. -/
def seqCountStmts (tid : Nat → Fin 4) : Nat → List (Fin 4 × Nat × CountStmt)
  | 0 => []
  | n + 1 => seqCountStmts tid n ++ iterStmts (tid n) n

/-- The static distribution of the ten iterations of the reduction loop over four
threads. -/
def staticChunks : List (List Nat) := [[0, 1, 2], [3, 4, 5], [6, 7], [8, 9]]

/-- The reduction loop run one iteration at a time: an iteration takes 16 statements
(two assignments, four rounds of test, addition and increment, the last test, the
store). -/
def seqRedStmts : List Nat :=
  List.replicate 48 0 ++ List.replicate 48 1 ++ List.replicate 32 2 ++ List.replicate 32 3

/-- The schedule of a pass in which both parallel loops run one iteration at a time,
iteration `i` of the counting loop on thread `tid i`. -/
def seqSchedule (tid : Nat → Fin 4) (numEdges : Nat) : PassSchedule :=
  ⟨seqCountStmts tid numEdges, staticChunks, seqRedStmts⟩

/-- What the three statements of iteration `i` of the counting loop do to the table
when no statement of another thread runs in between (see `iterStmts_run`). -/
def seqCountStep (tid : Nat → Fin 4) (edges : List Edge) (digit : Int) (i : Nat)
    (vertex_cnt_t : List Int) : Option (List Int) := do
  let num_thread : Int := ((tid i).val : Int)
  let e ← rd edges i
  let key := grab_the_digit e.src digit
  let c ← rd vertex_cnt_t (10 * num_thread + key)
  wr vertex_cnt_t (10 * num_thread + key) (c + 1)

/-- The table `vertex_cnt` the reduction loop leaves when its iterations run one at a
time on a 40-entry table (see `seqRed_spec`): entry `i` is the sum over `t = 0..3` of
`vertex_cnt_t[(t*10)+i]`. -/
def seqReduce (vertex_cnt_t : List Int) : List Int :=
  (List.range 10).map fun i =>
    (List.range 4).foldl (fun s t => s + vertex_cnt_t.getD (t * 10 + i) 0) 0

/-- The 10-entry count table after the counting loop, the reduction and the
cumulative sum, when the parallel loops run one iteration at a time. -/
def seqDigitTable (tid : Nat → Fin 4) (edges : List Edge) (numEdges digit : Int) :
    Option (List Int) := do
  let vertex_cnt_t ← forLoop (seqCountStep tid edges digit) numEdges.toNat
    (List.replicate 40 (0 : Int))
  forLoop cumulStep 9 (seqReduce vertex_cnt_t)

/-- A pass of `my_countSort` whose parallel loops run one iteration at a time (see
`my_countSort_seq`). -/
def my_countSortSeq (tid : Nat → Fin 4) (edges_sorted edges : List Edge)
    (numVertices numEdges digit : Int) : Option Buffers := do
  let _ := numVertices
  let vertex_cnt ← seqDigitTable tid edges numEdges digit
  let st ← forLoop (placeStep (fun e => grab_the_digit e.src digit) edges numEdges)
    numEdges.toNat ⟨vertex_cnt, edges_sorted⟩
  let edges2 ← transfer st.edges_sorted edges numEdges
  pure ⟨st.edges_sorted, edges2⟩

/-- Body of the pass loop when every pass runs one iteration at a time. -/
def passStepSeq (tid : Nat → Nat → Fin 4) (numVertices numEdges : Int) (j : Nat)
    (b : Buffers) : Option Buffers :=
  my_countSortSeq (tid (j + 1)) b.edges_sorted b.edges numVertices numEdges ((j : Int) + 1)

/-- The radix sort when every pass runs one iteration at a time (see `radixSort_seq`). -/
def radixSortSeq (tid : Nat → Nat → Fin 4) (edges_sorted edges : List Edge)
    (numVertices numEdges : Int) : Option Buffers :=
  forLoop (passStepSeq tid numVertices numEdges) (totalDigits numVertices) ⟨edges_sorted, edges⟩

/-- The schedules of the passes of a radix sort on `n` edges in which every pass runs
one iteration at a time, iteration `i` of the counting loop of pass `digi` on thread
`tid digi i`. -/
def seqPasses (tid : Nat → Nat → Fin 4) (n : Nat) : Nat → PassSchedule :=
  fun digi => seqSchedule (tid digi) n

/-! ### Executions in which statements of two threads overlap -/

/-- Two iterations on the threads 0 and 1 whose statements overlap in time: thread 1
assigns `dig` after thread 0 has assigned it and before thread 0 reads it. -/
def racySchedule : List (Fin 4 × Nat × CountStmt) :=
  [(0, 0, CountStmt.grab), (1, 1, CountStmt.grab), (0, 0, CountStmt.copy),
   (0, 0, CountStmt.incr), (1, 1, CountStmt.copy), (1, 1, CountStmt.incr)]

/-- The same two iterations with the threads the other way round: thread 0 assigns
`dig` after thread 1 has assigned it and before thread 1 reads it. -/
def racyScheduleB : List (Fin 4 × Nat × CountStmt) :=
  [(1, 1, CountStmt.grab), (0, 0, CountStmt.grab), (1, 1, CountStmt.copy),
   (1, 1, CountStmt.incr), (0, 0, CountStmt.copy), (0, 0, CountStmt.incr)]

/-- An execution of the reduction loop in which thread 1 starts iteration 3 (`s = 0`)
after thread 0 has summed bucket 0 and before thread 0 stores the sum; everything else
runs one iteration at a time. -/
def racyRedStmts : List Nat :=
  List.replicate 15 0 ++ [1] ++ List.replicate 33 0 ++ List.replicate 47 1 ++
    List.replicate 32 2 ++ List.replicate 32 3

/-- A pass on two edges whose counting loop runs as `racySchedule`. -/
def racyPassA : PassSchedule := ⟨racySchedule, staticChunks, seqRedStmts⟩

/-- A pass on two edges whose counting loop runs as `racyScheduleB`. -/
def racyPassB : PassSchedule := ⟨racyScheduleB, staticChunks, seqRedStmts⟩

/-- A pass on one edge whose reduction loop runs as `racyRedStmts`. -/
def racyPassR : PassSchedule := ⟨iterStmts 0 0, staticChunks, racyRedStmts⟩

/-! ## Sample data -/

/-- The edge `(s, d)`. -/
def mkE (s d : Int) : Edge := ⟨s, d⟩

/-- The input of the concrete scenario of the specification. -/
def sampleEdges : List Edge := [mkE 3 1, mkE 1 2, mkE 3 4, mkE 0 5, mkE 1 6]

/-- The expected output of the concrete scenario. -/
def sampleSorted : List Edge := [mkE 0 5, mkE 1 2, mkE 1 6, mkE 3 1, mkE 3 4]

/-- An output buffer of capacity `n` holding arbitrary (here zero) edges. -/
def blank (n : Nat) : List Edge := List.replicate n (mkE 0 0)

/-- A round-robin schedule: iteration `i` of every pass runs on thread `i % 4`. -/
def rrSched (_ : Nat) (i : Nat) : Fin 4 := ⟨i % 4, Nat.mod_lt i (by decide)⟩


/-! ## Specification-side notions -/

/-- The key of an edge as a natural number (keys in range are non-negative). -/
def natKey (key : Edge → Int) (e : Edge) : Nat := (key e).toNat

/-- Number of edges of `l` whose key is `k`. -/
def keyCount (κ : Edge → Nat) (k : Nat) (l : List Edge) : Nat :=
  l.countP (fun e => decide (κ e = k))

/-- Number of edges of `l` whose key is below `k`. -/
def keyBelow (κ : Edge → Nat) (k : Nat) (l : List Edge) : Nat :=
  l.countP (fun e => decide (κ e < k))

/-- The groups of keys `0 .. B-1` of `l`, one after the other, each group in input order. -/
def bucketSort (κ : Edge → Nat) : Nat → List Edge → List Edge
  | 0, _ => []
  | b + 1, l => bucketSort κ b l ++ l.filter (fun e => decide (κ e = b))

/-- The list `out` is `l` stably sorted by `κ`: it is ordered by `κ`, and for every key
the edges with that key are the same, in the same order, in `out` and in `l`. -/
def StableSortedBy (κ : Edge → Nat) (l out : List Edge) : Prop :=
  out.Pairwise (fun a b => κ a ≤ κ b) ∧
    ∀ k, out.filter (fun e => decide (κ e = k)) = l.filter (fun e => decide (κ e = k))

/-- Invariant of a placement loop over `l` once the input indices `≥ i` have been
placed: entry `k` of the count table points just behind the free part of group `k`,
and the filled part of group `k` holds the edges of key `k` among those indices,
in input order. -/
def PlaceInv (κ : Edge → Nat) (B : Nat) (l : List Edge) (cap i : Nat) (st : PlaceState) : Prop :=
  st.vertex_cnt.length = B ∧ st.edges_sorted.length = cap ∧
  (∀ k, k < B →
    st.vertex_cnt[k]? = some ((keyBelow κ k l + keyCount κ k (l.take i) : Nat) : Int)) ∧
  (∀ k, k < B → ∀ t, t < keyCount κ k (l.drop i) →
    st.edges_sorted[keyBelow κ k l + keyCount κ k (l.take i) + t]? =
      (List.filter (fun e => decide (κ e = k)) (l.drop i))[t]?)

/-- The loop of `grab_the_digit` over the integers, without reduction to the range of
an `int`: the product `10 ^ k`. -/
def modLoopExact : Nat → Int
  | 0 => 1
  | k + 1 => modLoopExact k * 10

/-- The value `grab_the_digit` would return if no product left the range of an `int`. -/
def grabExact (num dig : Int) : Int :=
  ((num.tdiv (modLoopExact (dig - 1).toNat)).tmod 10)

/-- The sum the reduction loop computes for bucket `i` when its iteration runs
undisturbed. -/
def slotSum (ct : List Int) (i : Nat) : Int :=
  ct.getD i 0 + ct.getD (10 + i) 0 + ct.getD (20 + i) 0 + ct.getD (30 + i) 0

/-- Four threads of the reduction loop, each at the start of an iteration, with the
given iterations left to run. -/
def redThreads (a b c d : List Nat) : List RedThread :=
  [⟨a, RedStmt.zeroS⟩, ⟨b, RedStmt.zeroS⟩, ⟨c, RedStmt.zeroS⟩, ⟨d, RedStmt.zeroS⟩]

/-- Two edges with the sources 1 and 2, already ordered by source. -/
def twoEdges : List Edge := [mkE 1 7, mkE 2 8]

/-! ## Memory access and loop lemmas -/

theorem rd_nat {α : Type} (a : List α) (i : Nat) : rd a (i : Int) = a[i]? := by
  simp [rd]

theorem rd_nonneg {α : Type} (a : List α) {x : Int} (h : 0 ≤ x) : rd a x = a[x.toNat]? := by
  simp [rd, h]

theorem wr_inside {α : Type} (a : List α) {x : Int} (v : α) (h : 0 ≤ x)
    (h2 : x.toNat < a.length) : wr a x v = some (a.set x.toNat v) := by
  simp [wr, h, h2]

theorem forLoop_succ {σ : Type} (body : Nat → σ → Option σ) (k : Nat) (s : σ) :
    forLoop body (k + 1) s = (forLoop body k s).bind (body k) := rfl

theorem keyCount_nil (κ : Edge → Nat) (k : Nat) : keyCount κ k [] = 0 := rfl

theorem keyCount_append (κ : Edge → Nat) (k : Nat) (l₁ l₂ : List Edge) :
    keyCount κ k (l₁ ++ l₂) = keyCount κ k l₁ + keyCount κ k l₂ := by
  simp [keyCount, List.countP_append]

theorem keyCount_single (κ : Edge → Nat) (k : Nat) (e : Edge) :
    keyCount κ k [e] = if κ e = k then 1 else 0 := by
  simp [keyCount, List.countP_cons]

theorem take_succ_getElem (l : List Edge) (i : Nat) (h : i < l.length) :
    l.take (i + 1) = l.take i ++ [l[i]] := by
  rw [List.take_succ, List.getElem?_eq_getElem h]; rfl

theorem drop_getElem_cons (l : List Edge) (i : Nat) (h : i < l.length) :
    l.drop i = l[i] :: l.drop (i + 1) := by
  simp

theorem keyCount_take_succ (κ : Edge → Nat) (k : Nat) (l : List Edge) (i : Nat)
    (h : i < l.length) :
    keyCount κ k (l.take (i + 1)) = keyCount κ k (l.take i) + if κ l[i] = k then 1 else 0 := by
  rw [take_succ_getElem l i h, keyCount_append, keyCount_single]

/-- The counting loop of `countSortEdgesBySource` stays inside the table and counts,
for each key, the edges seen so far. -/
theorem countLoop_spec (key : Edge → Int) (B : Nat) (l : List Edge)
    (hkey : ∀ e ∈ l, 0 ≤ key e ∧ key e < B) :
    ∀ i, i ≤ l.length → ∃ cnt, forLoop (countStep key l) i (List.replicate B 0) = some cnt ∧
      cnt.length = B ∧
      ∀ k, k < B → cnt[k]? = some ((keyCount (natKey key) k (l.take i) : Nat) : Int) := by
  intro i
  induction i with
  | zero =>
    intro _
    refine ⟨List.replicate B 0, rfl, by simp, ?_⟩
    intro k hk
    simp [keyCount_nil, List.getElem?_replicate, hk]
  | succ i ih =>
    intro hi
    obtain ⟨cnt, hc, hlen, hcnt⟩ := ih (by omega)
    have hi2 : i < l.length := by omega
    obtain ⟨h0, hB⟩ := hkey l[i] (List.getElem_mem hi2)
    have hm : (key l[i]).toNat < B := by omega
    refine ⟨cnt.set (key l[i]).toNat (((keyCount (natKey key) (key l[i]).toNat (l.take i) : Nat) : Int) + 1),
      ?_, by simp [hlen], ?_⟩
    · rw [forLoop_succ, hc]
      simp only [Option.bind, countStep, rd_nat, List.getElem?_eq_getElem hi2, bind, rd_nonneg _ h0,
        hcnt _ hm]
      rw [wr_inside _ _ h0 (by omega)]
    · intro k hk
      rw [List.getElem?_set, keyCount_take_succ _ _ _ _ hi2]
      by_cases hkk : (key l[i]).toNat = k
      · subst hkk
        simp [natKey, hlen, hm]
      · simp [natKey, hkk, hcnt k hk]

theorem wr_nat {α : Type} (a : List α) (i : Nat) (v : α) (h : i < a.length) :
    wr a (i : Int) v = some (a.set i v) := by
  simp [wr, h]

theorem keyBelow_succ (κ : Edge → Nat) (k : Nat) (l : List Edge) :
    keyBelow κ (k + 1) l = keyBelow κ k l + keyCount κ k l := by
  induction l with
  | nil => rfl
  | cons e t ih =>
    simp only [keyBelow, keyCount, List.countP_cons] at ih ⊢
    by_cases h1 : κ e < k
    · have h2 : κ e < k + 1 := by omega
      have h3 : ¬ κ e = k := by omega
      simp [h1, h2, h3]; omega
    · by_cases h3 : κ e = k
      · have h2 : κ e < k + 1 := by omega
        simp [h1, h2, h3]; omega
      · have h2 : ¬ κ e < k + 1 := by omega
        simp [h1, h2, h3]; omega

theorem keyBelow_zero (κ : Edge → Nat) (l : List Edge) : keyBelow κ 0 l = 0 := by
  simp [keyBelow]

theorem keyBelow_mono (κ : Edge → Nat) (l : List Edge) {a b : Nat} (h : a ≤ b) :
    keyBelow κ a l ≤ keyBelow κ b l := by
  apply List.countP_mono_left
  intro x _ hx
  simp only [decide_eq_true_eq] at hx ⊢
  omega

theorem keyBelow_le_length (κ : Edge → Nat) (k : Nat) (l : List Edge) :
    keyBelow κ k l ≤ l.length := List.countP_le_length _

theorem keyBelow_all (κ : Edge → Nat) (B : Nat) (l : List Edge) (h : ∀ e ∈ l, κ e < B) :
    keyBelow κ B l = l.length := by
  rw [keyBelow, List.countP_eq_length]
  intro e he
  simpa using h e he

/-- The cumulative-sum loop stays inside the table; after `j` iterations the entries
up to index `j` hold the number of edges with a key not above the index. -/
theorem cumulLoop_inv (κ : Edge → Nat) (B : Nat) (l : List Edge) (c0 : List Int)
    (hlen : c0.length = B) (h0 : ∀ k, k < B → c0[k]? = some ((keyCount κ k l : Nat) : Int)) :
    ∀ j, j + 1 ≤ B → ∃ cnt, forLoop cumulStep j c0 = some cnt ∧ cnt.length = B ∧
      (∀ k, k ≤ j → cnt[k]? = some ((keyBelow κ (k + 1) l : Nat) : Int)) ∧
      (∀ k, j < k → k < B → cnt[k]? = some ((keyCount κ k l : Nat) : Int)) := by
  intro j
  induction j with
  | zero =>
    intro hB
    refine ⟨c0, rfl, hlen, ?_, fun k _ hk => h0 k hk⟩
    intro k hk
    have hk0 : k = 0 := by omega
    subst hk0
    rw [h0 0 (by omega), keyBelow_succ, keyBelow_zero]; simp
  | succ j ih =>
    intro hB
    obtain ⟨cnt, hc, hl, hlow, hhigh⟩ := ih (by omega)
    have e1 : ((j : Int) + 1) = ((j + 1 : Nat) : Int) := by push_cast; rfl
    have e2 : ((j : Int) + 1 - 1) = (j : Int) := by omega
    refine ⟨cnt.set (j + 1) (((keyCount κ (j + 1) l : Nat) : Int) + ((keyBelow κ (j + 1) l : Nat) : Int)),
      ?_, by simp [hl], ?_, ?_⟩
    · rw [forLoop_succ, hc]
      simp only [Option.bind, cumulStep, bind, e2, rd_nat, hlow j (le_refl j)]
      rw [e1, rd_nat, hhigh (j + 1) (by omega) (by omega)]
      simp only []
      rw [wr_nat _ _ _ (by omega)]
    · intro k hk
      rw [List.getElem?_set]
      by_cases hkk : j + 1 = k
      · subst hkk
        have : j + 1 < cnt.length := by omega
        simp only [this, if_true]
        rw [keyBelow_succ κ (j + 1)]; push_cast; congr 1; omega
      · simp only [hkk, if_false]
        exact hlow k (by omega)
    · intro k hk hkB
      rw [List.getElem?_set]
      have hkk : ¬ j + 1 = k := by omega
      simp only [hkk, if_false]
      exact hhigh k (by omega) hkB

/-- After the whole cumulative-sum loop entry `k` holds the number of edges with key `≤ k`. -/
theorem cumulLoop_spec (κ : Edge → Nat) (B : Nat) (l : List Edge) (c0 : List Int)
    (hlen : c0.length = B) (h0 : ∀ k, k < B → c0[k]? = some ((keyCount κ k l : Nat) : Int)) :
    ∃ cnt, forLoop cumulStep (B - 1) c0 = some cnt ∧ cnt.length = B ∧
      ∀ k, k < B → cnt[k]? = some ((keyBelow κ (k + 1) l : Nat) : Int) := by
  by_cases hB : B = 0
  · subst hB
    exact ⟨c0, rfl, hlen, fun k hk => absurd hk (by omega)⟩
  · obtain ⟨cnt, hc, hl, hlow, _⟩ := cumulLoop_inv κ B l c0 hlen h0 (B - 1) (by omega)
    exact ⟨cnt, hc, hl, fun k hk => hlow k (by omega)⟩

theorem keyCount_take_drop (κ : Edge → Nat) (k : Nat) (l : List Edge) (m : Nat) :
    keyCount κ k (l.take m) + keyCount κ k (l.drop m) = keyCount κ k l := by
  rw [← keyCount_append, List.take_append_drop]

theorem keyCount_cons (κ : Edge → Nat) (k : Nat) (e : Edge) (t : List Edge) :
    keyCount κ k (e :: t) = (if κ e = k then 1 else 0) + keyCount κ k t := by
  simp only [keyCount, List.countP_cons, decide_eq_true_eq]; omega

/-- One iteration of the placement loop: it handles input index `i`, stays inside
both buffers, and re-establishes the invariant. -/
theorem placeStep_spec (key : Edge → Int) (B : Nat) (l : List Edge) (cap : Nat)
    (hkey : ∀ e ∈ l, 0 ≤ key e ∧ key e < B) (hcap : l.length ≤ cap)
    (i j : Nat) (hij : i + 1 + j = l.length) (st : PlaceState)
    (hinv : PlaceInv (natKey key) B l cap (i + 1) st) :
    ∃ st2, placeStep key l (l.length : Int) j st = some st2 ∧
      PlaceInv (natKey key) B l cap i st2 := by
  obtain ⟨hlc, hle, hcnt, hout⟩ := hinv
  have hi : i < l.length := by omega
  obtain ⟨h0, hB⟩ := hkey l[i] (List.getElem_mem hi)
  have hk0 : natKey key l[i] < B := by simp only [natKey]; omega
  have hidx : ((l.length : Int) - 1 - (j : Int)) = (i : Int) := by omega
  have htk : ∀ k, keyCount (natKey key) k (l.take (i + 1)) =
      keyCount (natKey key) k (l.take i) + if natKey key l[i] = k then 1 else 0 :=
    fun k => keyCount_take_succ _ k l i hi
  have hdk : ∀ k, keyCount (natKey key) k (l.drop i) =
      (if natKey key l[i] = k then 1 else 0) + keyCount (natKey key) k (l.drop (i + 1)) := by
    intro k
    rw [drop_getElem_cons l i hi, keyCount_cons]
  have hsp : ∀ k, keyCount (natKey key) k (l.take (i + 1)) +
      keyCount (natKey key) k (l.drop (i + 1)) = keyCount (natKey key) k l :=
    fun k => keyCount_take_drop _ k l (i + 1)
  have hbs : ∀ k, keyBelow (natKey key) (k + 1) l =
      keyBelow (natKey key) k l + keyCount (natKey key) k l := fun k => keyBelow_succ _ k l
  have hbl : ∀ k, keyBelow (natKey key) k l ≤ l.length := fun k => keyBelow_le_length _ k l
  -- the position written in this iteration
  have hp : keyBelow (natKey key) (natKey key l[i]) l
      + keyCount (natKey key) (natKey key l[i]) (l.take i) < cap := by
    have a1 := htk (natKey key l[i])
    have a2 := hsp (natKey key l[i])
    have a3 := hbs (natKey key l[i])
    have a4 := hbl (natKey key l[i] + 1)
    simp only [if_true] at a1
    omega
  have hc := hcnt _ hk0
  rw [htk, if_pos rfl] at hc
  have hpos : (((keyBelow (natKey key) (natKey key l[i]) l
      + (keyCount (natKey key) (natKey key l[i]) (l.take i) + 1) : Nat) : Int) - 1) =
      ((keyBelow (natKey key) (natKey key l[i]) l
        + keyCount (natKey key) (natKey key l[i]) (l.take i) : Nat) : Int) := by
    push_cast; omega
  refine ⟨⟨st.vertex_cnt.set (natKey key l[i])
      ((keyBelow (natKey key) (natKey key l[i]) l
        + keyCount (natKey key) (natKey key l[i]) (l.take i) : Nat) : Int),
      st.edges_sorted.set (keyBelow (natKey key) (natKey key l[i]) l
        + keyCount (natKey key) (natKey key l[i]) (l.take i)) l[i]⟩, ?_, ?_⟩
  · simp only [placeStep, hidx, rd_nat, List.getElem?_eq_getElem hi, bind, Option.bind,
      rd_nonneg _ h0]
    simp only [natKey] at hc hpos hp hk0 ⊢
    rw [hc]
    simp only [hpos]
    rw [wr_nat _ _ _ (by omega)]
    simp only []
    rw [wr_inside _ _ h0 (by omega)]
    rfl
  · refine ⟨by simp [hlc], by simp [hle], ?_, ?_⟩
    · intro k hk
      simp only [List.getElem?_set]
      by_cases hkk : natKey key l[i] = k
      · subst hkk
        simp [hlc, hk0]
      · have := hcnt k hk
        rw [htk, if_neg hkk] at this
        simp only [hkk, if_false]
        simpa using this
    · intro k hk t ht
      simp only [List.getElem?_set]
      by_cases hkk : natKey key l[i] = k
      · subst hkk
        rw [drop_getElem_cons l i hi, List.filter_cons_of_pos (by simp)]
        rw [hdk, if_pos rfl] at ht
        cases t with
        | zero =>
          simp [hle, hp]
        | succ t =>
          have hne : ¬ (keyBelow (natKey key) (natKey key l[i]) l
              + keyCount (natKey key) (natKey key l[i]) (l.take i) =
            keyBelow (natKey key) (natKey key l[i]) l
              + keyCount (natKey key) (natKey key l[i]) (l.take i) + (t + 1)) := by omega
          simp only [hne, if_false, List.getElem?_cons_succ]
          have := hout _ hk0 t (by omega)
          rw [htk, if_pos rfl] at this
          rw [← this]
          congr 1
          omega
      · rw [drop_getElem_cons l i hi, List.filter_cons_of_neg (by simpa using hkk)]
        rw [hdk, if_neg hkk] at ht
        have hq := hout k hk t (by omega)
        rw [htk, if_neg hkk] at hq
        have hne : ¬ (keyBelow (natKey key) (natKey key l[i]) l
              + keyCount (natKey key) (natKey key l[i]) (l.take i) =
            keyBelow (natKey key) k l + keyCount (natKey key) k (l.take i) + t) := by
          have a1 := htk (natKey key l[i])
          have a2 := hsp (natKey key l[i])
          have a3 := hbs (natKey key l[i])
          have b1 := htk k
          have b2 := hsp k
          have b3 := hbs k
          simp only [if_true] at a1
          rw [if_neg hkk] at b1
          rcases Nat.lt_or_gt_of_ne hkk with hlt | hgt
          · have := keyBelow_mono (natKey key) l (show natKey key l[i] + 1 ≤ k by omega)
            omega
          · have := keyBelow_mono (natKey key) l (show k + 1 ≤ natKey key l[i] by omega)
            omega
        simp only [hne, if_false]
        simpa using hq

/-- The placement loop run for `j` iterations from the cumulative table stays inside
both buffers and establishes the invariant for the indices `≥ l.length - j`. -/
theorem placeLoop_inv (key : Edge → Int) (B : Nat) (l : List Edge) (cap : Nat)
    (hkey : ∀ e ∈ l, 0 ≤ key e ∧ key e < B) (hcap : l.length ≤ cap)
    (c0 : List Int) (es : List Edge) (hc0len : c0.length = B) (hes : es.length = cap)
    (hc0 : ∀ k, k < B → c0[k]? = some ((keyBelow (natKey key) (k + 1) l : Nat) : Int)) :
    ∀ j, j ≤ l.length → ∃ st, forLoop (placeStep key l (l.length : Int)) j ⟨c0, es⟩ = some st ∧
      PlaceInv (natKey key) B l cap (l.length - j) st := by
  intro j
  induction j with
  | zero =>
    intro _
    refine ⟨⟨c0, es⟩, rfl, hc0len, hes, ?_, ?_⟩
    · intro k hk
      simp only [Nat.sub_zero, List.take_length]
      rw [hc0 k hk, keyBelow_succ]
    · intro k _ t ht
      simp [keyCount_nil] at ht
  | succ j ih =>
    intro hj
    obtain ⟨st, hst, hinv⟩ := ih (by omega)
    have e1 : l.length - j = (l.length - (j + 1)) + 1 := by omega
    rw [e1] at hinv
    obtain ⟨st2, hst2, hinv2⟩ := placeStep_spec key B l cap hkey hcap (l.length - (j + 1)) j
      (by omega) st hinv
    exact ⟨st2, by rw [forLoop_succ, hst]; exact hst2, hinv2⟩

theorem keyCount_eq_length_filter (κ : Edge → Nat) (k : Nat) (l : List Edge) :
    keyCount κ k l = (l.filter (fun e => decide (κ e = k))).length := by
  rw [keyCount, List.countP_eq_length_filter]

/-- Once every index has been placed, the first `keyBelow b` output entries are the
groups of the keys below `b`. -/
theorem placeInv_take (κ : Edge → Nat) (B : Nat) (l : List Edge) (cap : Nat) (st : PlaceState)
    (h : PlaceInv κ B l cap 0 st) :
    ∀ b, b ≤ B → st.edges_sorted.take (keyBelow κ b l) = bucketSort κ b l := by
  obtain ⟨_, _, _, hout⟩ := h
  intro b
  induction b with
  | zero => intro _; simp [keyBelow_zero, bucketSort]
  | succ b ih =>
    intro hb
    rw [keyBelow_succ, List.take_add, ih (by omega), bucketSort]
    congr 1
    apply List.ext_getElem?
    intro t
    rw [List.getElem?_take, List.getElem?_drop]
    by_cases ht : t < keyCount κ b l
    · have := hout b (by omega) t (by simpa using ht)
      simp only [List.take_zero, keyCount_nil, Nat.add_zero, List.drop_zero] at this
      simp only [ht, if_true]
      exact this
    · simp only [ht, if_false]
      symm
      rw [List.getElem?_eq_none_iff, ← keyCount_eq_length_filter]
      omega

theorem natKey_lt (key : Edge → Int) (B : Nat) (l : List Edge)
    (hkey : ∀ e ∈ l, 0 ≤ key e ∧ key e < B) : ∀ e ∈ l, natKey key e < B := by
  intro e he
  obtain ⟨h0, h1⟩ := hkey e he
  simp only [natKey]; omega

/-- The whole placement loop, started from the cumulative table, returns, keeps the
capacity of the output buffer and leaves the groups of the keys `0 .. B-1`, one
after the other, in the first `l.length` output entries. -/
theorem placeLoop_sorts (key : Edge → Int) (B : Nat) (l : List Edge)
    (hkey : ∀ e ∈ l, 0 ≤ key e ∧ key e < B)
    (c0 : List Int) (es : List Edge) (hcap : l.length ≤ es.length) (hc0len : c0.length = B)
    (hc0 : ∀ k, k < B → c0[k]? = some ((keyBelow (natKey key) (k + 1) l : Nat) : Int)) :
    ∃ st, forLoop (placeStep key l (l.length : Int)) l.length ⟨c0, es⟩ = some st ∧
      st.edges_sorted.length = es.length ∧
      st.edges_sorted.take l.length = bucketSort (natKey key) B l := by
  obtain ⟨st, hst, hinv⟩ := placeLoop_inv key B l es.length hkey hcap c0 es hc0len rfl hc0
    l.length (le_refl _)
  rw [Nat.sub_self] at hinv
  refine ⟨st, hst, hinv.2.1, ?_⟩
  have := placeInv_take _ B l _ st hinv B (le_refl _)
  rwa [keyBelow_all _ B l (natKey_lt key B l hkey)] at this

/-! ## The grouped list is the stable sort -/

theorem mem_bucketSort (κ : Edge → Nat) (l : List Edge) (e : Edge) :
    ∀ b, e ∈ bucketSort κ b l ↔ e ∈ l ∧ κ e < b := by
  intro b
  induction b with
  | zero => simp [bucketSort]
  | succ b ih =>
    simp only [bucketSort, List.mem_append, ih, List.mem_filter, decide_eq_true_eq]
    constructor
    · rintro (⟨h1, h2⟩ | ⟨h1, h2⟩)
      · exact ⟨h1, by omega⟩
      · exact ⟨h1, by omega⟩
    · rintro ⟨h1, h2⟩
      by_cases h : κ e < b
      · exact Or.inl ⟨h1, h⟩
      · exact Or.inr ⟨h1, by omega⟩

theorem bucketSort_pairwise (κ : Edge → Nat) (l : List Edge) :
    ∀ b, (bucketSort κ b l).Pairwise (fun x y => κ x ≤ κ y) := by
  intro b
  induction b with
  | zero => simp [bucketSort]
  | succ b ih =>
    rw [bucketSort, List.pairwise_append]
    refine ⟨ih, ?_, ?_⟩
    · rw [List.pairwise_iff_forall_sublist]
      intro x y hxy
      have hx : x ∈ l.filter (fun e => decide (κ e = b)) := hxy.subset (by simp)
      have hy : y ∈ l.filter (fun e => decide (κ e = b)) := hxy.subset (by simp)
      simp only [List.mem_filter, decide_eq_true_eq] at hx hy
      omega
    · intro x hx y hy
      rw [mem_bucketSort] at hx
      simp only [List.mem_filter, decide_eq_true_eq] at hy
      omega

theorem filter_bucketSort (κ : Edge → Nat) (l : List Edge) (k : Nat) :
    ∀ b, (bucketSort κ b l).filter (fun e => decide (κ e = k)) =
      if k < b then l.filter (fun e => decide (κ e = k)) else [] := by
  intro b
  induction b with
  | zero => simp [bucketSort]
  | succ b ih =>
    rw [bucketSort, List.filter_append, ih, List.filter_filter]
    by_cases h1 : k < b
    · have h2 : k < b + 1 := by omega
      simp only [h1, h2, if_true]
      have : l.filter (fun a => decide (κ a = k) && decide (κ a = b)) = [] := by
        rw [List.filter_eq_nil_iff]
        intro a _
        simp only [Bool.and_eq_true, decide_eq_true_eq]
        omega
      rw [this, List.append_nil]
    · by_cases h3 : k = b
      · subst h3
        simp
      · have h2 : ¬ k < b + 1 := by omega
        simp only [h1, h2, if_false, List.nil_append]
        rw [List.filter_eq_nil_iff]
        intro a _
        simp only [Bool.and_eq_true, decide_eq_true_eq]
        omega

/-- When every key is below `B`, the grouped list is the stable sort of the input. -/
theorem bucketSort_stable (κ : Edge → Nat) (B : Nat) (l : List Edge) (h : ∀ e ∈ l, κ e < B) :
    StableSortedBy κ l (bucketSort κ B l) := by
  refine ⟨bucketSort_pairwise κ l B, ?_⟩
  intro k
  rw [filter_bucketSort]
  by_cases hk : k < B
  · simp [hk]
  · simp only [hk, if_false]
    symm
    rw [List.filter_eq_nil_iff]
    intro a ha
    have := h a ha
    simp only [decide_eq_true_eq]
    omega

/-- Two lists ordered by `κ` with the same groups are equal. -/
theorem eq_of_groups (κ : Edge → Nat) :
    ∀ a b : List Edge, a.Pairwise (fun x y => κ x ≤ κ y) → b.Pairwise (fun x y => κ x ≤ κ y) →
      (∀ k, a.filter (fun e => decide (κ e = k)) = b.filter (fun e => decide (κ e = k))) →
      a = b := by
  intro a
  induction a with
  | nil =>
    intro b _ _ h
    cases b with
    | nil => rfl
    | cons y b2 =>
      have := h (κ y)
      simp at this
  | cons x a2 ih =>
    intro b ha hb h
    cases b with
    | nil =>
      have := h (κ x)
      simp at this
    | cons y b2 =>
      have hy : y ∈ x :: a2 := by
        have : y ∈ (x :: a2).filter (fun e => decide (κ e = κ y)) := by
          rw [h (κ y)]; simp
        exact (List.mem_filter.mp this).1
      have hx : x ∈ y :: b2 := by
        have : x ∈ (y :: b2).filter (fun e => decide (κ e = κ x)) := by
          rw [← h (κ x)]; simp
        exact (List.mem_filter.mp this).1
      rw [List.pairwise_cons] at ha hb
      have hxy : κ x ≤ κ y := by
        rcases List.mem_cons.mp hy with e | m
        · rw [e]
        · exact ha.1 y m
      have hyx : κ y ≤ κ x := by
        rcases List.mem_cons.mp hx with e | m
        · rw [e]
        · exact hb.1 x m
      have hk : κ y = κ x := by omega
      have h1 := h (κ x)
      rw [List.filter_cons_of_pos (by simp), List.filter_cons_of_pos (by simp [hk])] at h1
      have hhead : x = y := (List.cons.inj h1).1
      have htail := (List.cons.inj h1).2
      subst hhead
      congr 1
      apply ih b2 ha.2 hb.2
      intro k
      by_cases hkk : κ x = k
      · subst hkk; exact htail
      · have := h k
        rwa [List.filter_cons_of_neg (by simpa using hkk),
          List.filter_cons_of_neg (by simpa using hkk)] at this

/-- A list has at most one stable sort. -/
theorem StableSortedBy.unique (κ : Edge → Nat) (l a b : List Edge)
    (ha : StableSortedBy κ l a) (hb : StableSortedBy κ l b) : a = b :=
  eq_of_groups κ a b ha.1 hb.1 (fun k => (ha.2 k).trans (hb.2 k).symm)

/-- A list that is already ordered is its own stable sort. -/
theorem StableSortedBy.self (κ : Edge → Nat) (l : List Edge)
    (h : l.Pairwise (fun x y => κ x ≤ κ y)) : StableSortedBy κ l l := ⟨h, fun _ => rfl⟩

/-- A stable sort is a permutation of its input. -/
theorem StableSortedBy.perm (κ : Edge → Nat) (l out : List Edge) (h : StableSortedBy κ l out) :
    out.Perm l := by
  rw [List.perm_iff_count]
  intro e
  have h1 : List.count e (out.filter (fun x => decide (κ x = κ e))) = List.count e out :=
    List.count_filter (by simp)
  have h2 : List.count e (l.filter (fun x => decide (κ x = κ e))) = List.count e l :=
    List.count_filter (by simp)
  rw [← h1, ← h2, h.2]

/-- Stable sortedness only depends on the keys of the edges of the input. -/
theorem StableSortedBy.congr (κ κ2 : Edge → Nat) (l out : List Edge)
    (h : StableSortedBy κ l out) (hk : ∀ e ∈ l, κ e = κ2 e) : StableSortedBy κ2 l out := by
  have hmem : ∀ e ∈ out, e ∈ l := fun e he => (h.perm).subset he
  refine ⟨?_, ?_⟩
  · refine h.1.imp_of_mem ?_
    intro x y hx hy hxy
    rw [← hk x (hmem x hx), ← hk y (hmem y hy)]
    exact hxy
  · intro k
    have e1 : out.filter (fun e => decide (κ2 e = k)) = out.filter (fun e => decide (κ e = k)) := by
      apply List.filter_congr
      intro x hx
      rw [hk x (hmem x hx)]
    have e2 : l.filter (fun e => decide (κ2 e = k)) = l.filter (fun e => decide (κ e = k)) := by
      apply List.filter_congr
      intro x hx
      rw [hk x hx]
    rw [e1, e2, h.2]

/-! ## countSortEdgesBySource -/

/-- The key function of `countSortEdgesBySource`. -/
theorem srcKey_range (l : List Edge) (V : Int) (hV : ∀ e ∈ l, 0 ≤ e.src ∧ e.src < V) :
    ∀ e ∈ l, 0 ≤ (fun e : Edge => e.src) e ∧ (fun e : Edge => e.src) e < (V.toNat : Int) := by
  intro e he
  obtain ⟨h0, h1⟩ := hV e he
  refine ⟨h0, ?_⟩
  show e.src < (V.toNat : Int)
  omega

/-- On keys in range the count table of `countSortEdgesBySource` is built without an
out-of-range access, and entry `k` is the number of edges with source `≤ k`. -/
theorem countSortTable_spec (l : List Edge) (V : Int) (hV : ∀ e ∈ l, 0 ≤ e.src ∧ e.src < V) :
    ∃ cnt, countSortTable l V (l.length : Int) = some cnt ∧ cnt.length = V.toNat ∧
      ∀ k, k < V.toNat →
        cnt[k]? = some ((keyBelow (natKey fun e => e.src) (k + 1) l : Nat) : Int) := by
  obtain ⟨c1, hc1, hl1, hcnt1⟩ := countLoop_spec (fun e => e.src) V.toNat l (srcKey_range l V hV)
    l.length (le_refl _)
  rw [List.take_length] at hcnt1
  obtain ⟨c2, hc2, hl2, hcnt2⟩ := cumulLoop_spec (natKey fun e => e.src) V.toNat l c1 hl1 hcnt1
  refine ⟨c2, ?_, hl2, hcnt2⟩
  have e1 : (V - 1).toNat = V.toNat - 1 := by omega
  simp only [countSortTable, Int.toNat_ofNat, hc1, bind, Option.bind, e1, hc2]

/-- On keys in range `countSortEdgesBySource` returns; the output buffer keeps its
capacity, its first `numEdges` entries are the groups of the sources `0 .. numVertices-1`
one after the other, and the input buffer is returned as it was. -/
theorem countSort_spec (es l : List Edge) (V : Int) (hV : ∀ e ∈ l, 0 ≤ e.src ∧ e.src < V)
    (hcap : l.length ≤ es.length) :
    ∃ out, countSortEdgesBySource es l V (l.length : Int) = some ⟨out, l⟩ ∧
      out.length = es.length ∧
      out.take l.length = bucketSort (natKey fun e => e.src) V.toNat l := by
  obtain ⟨cnt, hc, hlen, hcnt⟩ := countSortTable_spec l V hV
  obtain ⟨st, hst, hl, htake⟩ := placeLoop_sorts (fun e => e.src) V.toNat l (srcKey_range l V hV)
    cnt es hcap hlen hcnt
  refine ⟨st.edges_sorted, ?_, hl, htake⟩
  simp only [countSortEdgesBySource, hc, bind, Option.bind, Int.toNat_ofNat, hst, pure]

/-- The first `numEdges` output entries of `countSortEdgesBySource` are the stable sort
of the input by source. -/
theorem countSort_stable (es l : List Edge) (V : Int) (hV : ∀ e ∈ l, 0 ≤ e.src ∧ e.src < V)
    (hcap : l.length ≤ es.length) :
    ∃ out, countSortEdgesBySource es l V (l.length : Int) = some ⟨out, l⟩ ∧
      out.length = es.length ∧
      StableSortedBy (natKey fun e => e.src) l (out.take l.length) := by
  obtain ⟨out, h1, h2, h3⟩ := countSort_spec es l V hV hcap
  refine ⟨out, h1, h2, ?_⟩
  rw [h3]
  exact bucketSort_stable _ _ l (natKey_lt _ _ l (srcKey_range l V hV))

/-! ## my_countSortSeq: counting, reduction, transfer -/

theorem fold4 (f : Nat → Int) :
    (List.range 4).foldl (fun s t => s + f t) 0 = f 0 + f 1 + f 2 + f 3 := by
  simp [List.range_succ]

theorem getD_set_int (ct : List Int) (idx m : Nat) (w : Int) (h : idx < ct.length) :
    (ct.set idx w).getD m 0 = if idx = m then w else ct.getD m 0 := by
  rw [List.getD_eq_getElem?_getD, List.getElem?_set, List.getD_eq_getElem?_getD]
  by_cases hm : idx = m
  · subst hm
    simp [h]
  · simp [hm]

theorem getD_replicate_zero (n m : Nat) : (List.replicate n (0 : Int)).getD m 0 = 0 := by
  rw [List.getD_eq_getElem?_getD, List.getElem?_replicate]
  split_ifs <;> rfl

theorem reduceCounts_length (ct : List Int) : (seqReduce ct).length = 10 := by
  simp [seqReduce]

theorem reduceCounts_get (ct : List Int) (v : Nat) (hv : v < 10) :
    (seqReduce ct)[v]? =
      some (ct.getD v 0 + ct.getD (10 + v) 0 + ct.getD (20 + v) 0 + ct.getD (30 + v) 0) := by
  simp only [seqReduce, List.getElem?_map, List.getElem?_range hv, Option.map_some', fold4]
  simp

/-- Effect of one increment in a thread slice on the sums the reduction computes. -/
theorem sum4_set (ct : List Int) (hlen : ct.length = 40) (t0 k0 v : Nat) (ht0 : t0 < 4)
    (hk0 : k0 < 10) (hv : v < 10) (w : Int) :
    (ct.set (10 * t0 + k0) w).getD v 0 + (ct.set (10 * t0 + k0) w).getD (10 + v) 0
      + (ct.set (10 * t0 + k0) w).getD (20 + v) 0 + (ct.set (10 * t0 + k0) w).getD (30 + v) 0 =
    if k0 = v then
      ct.getD v 0 + ct.getD (10 + v) 0 + ct.getD (20 + v) 0 + ct.getD (30 + v) 0
        - ct.getD (10 * t0 + k0) 0 + w
    else ct.getD v 0 + ct.getD (10 + v) 0 + ct.getD (20 + v) 0 + ct.getD (30 + v) 0 := by
  have hidx : 10 * t0 + k0 < ct.length := by omega
  simp only [getD_set_int _ _ _ _ hidx]
  by_cases hkv : k0 = v
  · subst hkv
    simp only [if_true]
    interval_cases t0
    · have a1 : ¬ (10 * 0 + k0 = 10 + k0) := by omega
      have a2 : ¬ (10 * 0 + k0 = 20 + k0) := by omega
      have a3 : ¬ (10 * 0 + k0 = 30 + k0) := by omega
      have a0 : 10 * 0 + k0 = k0 := by omega
      simp only [a1, a2, a3, a0, if_true, if_false]; omega
    · have a1 : ¬ (10 * 1 + k0 = k0) := by omega
      have a2 : ¬ (10 * 1 + k0 = 20 + k0) := by omega
      have a3 : ¬ (10 * 1 + k0 = 30 + k0) := by omega
      have a0 : 10 * 1 + k0 = 10 + k0 := by omega
      simp only [a1, a2, a3, a0, if_true, if_false]; omega
    · have a1 : ¬ (10 * 2 + k0 = k0) := by omega
      have a2 : ¬ (10 * 2 + k0 = 10 + k0) := by omega
      have a3 : ¬ (10 * 2 + k0 = 30 + k0) := by omega
      have a0 : 10 * 2 + k0 = 20 + k0 := by omega
      simp only [a1, a2, a3, a0, if_true, if_false]; omega
    · have a1 : ¬ (10 * 3 + k0 = k0) := by omega
      have a2 : ¬ (10 * 3 + k0 = 10 + k0) := by omega
      have a3 : ¬ (10 * 3 + k0 = 20 + k0) := by omega
      have a0 : 10 * 3 + k0 = 30 + k0 := by omega
      simp only [a1, a2, a3, a0, if_true, if_false]; omega
  · have a0 : ¬ (10 * t0 + k0 = v) := by omega
    have a1 : ¬ (10 * t0 + k0 = 10 + v) := by omega
    have a2 : ¬ (10 * t0 + k0 = 20 + v) := by omega
    have a3 : ¬ (10 * t0 + k0 = 30 + v) := by omega
    simp only [a0, a1, a2, a3, hkv, if_false]

/-- The counting loop run one iteration at a time, under any assignment of the
iterations to the threads, stays inside the 40-entry
table; the four slices together count, for each digit value, the edges seen so far. -/
theorem digitCountLoop_spec (tid : Nat → Fin 4) (digit : Int) (l : List Edge)
    (hkey : ∀ e ∈ l, 0 ≤ grab_the_digit e.src digit ∧ grab_the_digit e.src digit < 10) :
    ∀ i, i ≤ l.length → ∃ ct, forLoop (seqCountStep tid l digit) i (List.replicate 40 0) = some ct ∧
      ct.length = 40 ∧
      ∀ v, v < 10 → ct.getD v 0 + ct.getD (10 + v) 0 + ct.getD (20 + v) 0 + ct.getD (30 + v) 0 =
        ((keyCount (natKey fun e => grab_the_digit e.src digit) v (l.take i) : Nat) : Int) := by
  intro i
  induction i with
  | zero =>
    intro _
    refine ⟨List.replicate 40 0, rfl, by simp, ?_⟩
    intro v hv
    simp only [getD_replicate_zero, List.take_zero, keyCount_nil]
    rfl
  | succ i ih =>
    intro hi
    obtain ⟨ct, hc, hlen, hsum⟩ := ih (by omega)
    have hi2 : i < l.length := by omega
    obtain ⟨h0, h10⟩ := hkey l[i] (List.getElem_mem hi2)
    have ht : (tid i).val < 4 := (tid i).isLt
    have hidx : (10 * ((tid i).val : Int) + grab_the_digit l[i].src digit) =
        ((10 * (tid i).val + (grab_the_digit l[i].src digit).toNat : Nat) : Int) := by
      push_cast; omega
    have hin : 10 * (tid i).val + (grab_the_digit l[i].src digit).toNat < ct.length := by omega
    refine ⟨ct.set (10 * (tid i).val + (grab_the_digit l[i].src digit).toNat)
      (ct.getD (10 * (tid i).val + (grab_the_digit l[i].src digit).toNat) 0 + 1), ?_,
      by simp [hlen], ?_⟩
    · rw [forLoop_succ, hc]
      simp only [Option.bind, seqCountStep, rd_nat, List.getElem?_eq_getElem hi2, bind, hidx,
        List.getElem?_eq_getElem hin]
      rw [wr_nat _ _ _ hin, List.getD_eq_getElem _ _ hin]
    · intro v hv
      rw [sum4_set ct hlen _ _ v ht (by omega) hv, keyCount_take_succ _ _ _ _ hi2, hsum v hv]
      by_cases hkv : (grab_the_digit l[i].src digit).toNat = v
      · simp only [natKey, hkv, if_true]; push_cast; omega
      · simp only [natKey, hkv, if_false]; simp

/-- The table handed to the placement loop of `my_countSortSeq`: entry `v` is the number
of edges whose digit is `≤ v`. -/
theorem digitTable_spec (tid : Nat → Fin 4) (digit : Int) (l : List Edge)
    (hkey : ∀ e ∈ l, 0 ≤ grab_the_digit e.src digit ∧ grab_the_digit e.src digit < 10) :
    ∃ cnt, seqDigitTable tid l (l.length : Int) digit = some cnt ∧ cnt.length = 10 ∧
      ∀ k, k < 10 → cnt[k]? =
        some ((keyBelow (natKey fun e => grab_the_digit e.src digit) (k + 1) l : Nat) : Int) := by
  obtain ⟨ct, hc, _, hsum⟩ := digitCountLoop_spec tid digit l hkey l.length (le_refl _)
  rw [List.take_length] at hsum
  obtain ⟨c2, hc2, hl2, hcnt2⟩ := cumulLoop_spec (natKey fun e => grab_the_digit e.src digit) 10 l
    (seqReduce ct) (reduceCounts_length ct)
    (fun k hk => by rw [reduceCounts_get ct k hk, hsum k hk])
  refine ⟨c2, ?_, hl2, hcnt2⟩
  simp only [seqDigitTable, Int.toNat_ofNat, hc, bind, Option.bind]
  exact hc2

/-- The loop of `transfer` stays inside both buffers; after `i` iterations the first
`i` entries of the target are those of the origin and the rest is untouched. -/
theorem transferLoop_spec (org transf : List Edge) :
    ∀ i, i ≤ org.length → i ≤ transf.length →
      forLoop (transferStep org) i transf = some (org.take i ++ transf.drop i) := by
  intro i
  induction i with
  | zero => intro _ _; simp [forLoop]
  | succ i ih =>
    intro h1 h2
    have h3 : i < org.length := by omega
    have h4 : i < (org.take i ++ transf.drop i).length := by
      simp only [List.length_append, List.length_take, List.length_drop]; omega
    rw [forLoop_succ, ih (by omega) (by omega)]
    simp only [Option.bind, transferStep, rd_nat, List.getElem?_eq_getElem h3, bind,
      List.getElem?_eq_getElem h4]
    rw [wr_nat _ _ _ h4]
    congr 1
    apply List.ext_getElem?
    intro m
    rw [List.getElem?_set]
    simp only [h4, if_true, List.getElem?_append, List.length_take, List.getElem?_take,
      List.getElem?_drop]
    have hmin : min i org.length = i := by omega
    have hmin2 : min (i + 1) org.length = i + 1 := by omega
    rw [hmin, hmin2]
    by_cases hm : i = m
    · subst hm
      simp [List.getElem?_eq_getElem h3]
    · by_cases hm2 : m < i
      · have : m < i + 1 := by omega
        simp [hm, hm2, this]
      · have h5 : ¬ m < i + 1 := by omega
        simp only [hm, hm2, h5, if_false]
        congr 1
        omega

/-- Function `transfer` on a target of exactly `numEdges` entries returns the first
`numEdges` entries of the origin. -/
theorem transfer_spec (org l : List Edge) (h : l.length ≤ org.length) :
    transfer org l (l.length : Int) = some (org.take l.length) := by
  rw [transfer, Int.toNat_ofNat, transferLoop_spec org l l.length h (le_refl _)]
  simp

/-- One pass of `my_countSortSeq` on digit keys in `0..9` returns; the output buffer
keeps its capacity, its first `numEdges` entries are the groups of the digit values
`0 .. 9` one after the other, and the input buffer receives a copy of them. -/
theorem my_countSort_spec (tid : Nat → Fin 4) (es l : List Edge) (V digit : Int)
    (hkey : ∀ e ∈ l, 0 ≤ grab_the_digit e.src digit ∧ grab_the_digit e.src digit < 10)
    (hcap : l.length ≤ es.length) :
    ∃ out, my_countSortSeq tid es l V (l.length : Int) digit = some ⟨out, out.take l.length⟩ ∧
      out.length = es.length ∧
      out.take l.length = bucketSort (natKey fun e => grab_the_digit e.src digit) 10 l := by
  obtain ⟨cnt, hc, hlen, hcnt⟩ := digitTable_spec tid digit l hkey
  obtain ⟨st, hst, hl, htake⟩ := placeLoop_sorts (fun e => grab_the_digit e.src digit) 10 l
    (by simpa using hkey) cnt es hcap hlen hcnt
  refine ⟨st.edges_sorted, ?_, hl, htake⟩
  simp only [my_countSortSeq, hc, bind, Option.bind, Int.toNat_ofNat, hst, pure,
    transfer_spec st.edges_sorted l (by omega)]

/-! ## Digits -/

theorem wrap32_id (x : Int) (h1 : -2147483648 ≤ x) (h2 : x < 2147483648) : wrap32 x = x := by
  unfold wrap32; omega

/-- As long as the power fits in an `int`, the loop of `grab_the_digit` computes it exactly. -/
theorem modLoop_eq : ∀ k : Nat, 10 ^ k < 2147483648 → modLoop k = ((10 ^ k : Nat) : Int) := by
  intro k
  induction k with
  | zero => intro _; rfl
  | succ k ih =>
    intro h
    have h1 : 10 ^ (k + 1) = 10 ^ k * 10 := pow_succ 10 k
    have h2 : 10 ^ k < 2147483648 := by omega
    rw [modLoop, ih h2, wrap32_id _ (by omega) (by omega), h1]
    push_cast; rfl

/-- On a non-negative number `grab_the_digit` returns the decimal digit at the given
position, as long as the divisor fits in an `int`. -/
theorem grab_nonneg (s : Int) (j : Nat) (hs : 0 ≤ s) (hj : 10 ^ j < 2147483648) :
    grab_the_digit s ((j : Int) + 1) = ((s.toNat / 10 ^ j % 10 : Nat) : Int) := by
  have e1 : ((j : Int) + 1 - 1).toNat = j := by omega
  have hp : (0 : Int) ≤ ((10 ^ j : Nat) : Int) := Int.ofNat_nonneg _
  rw [grab_the_digit, e1, modLoop_eq j hj, Int.tdiv_eq_ediv hs hp,
    Int.tmod_eq_emod (Int.ediv_nonneg hs hp) (by decide)]
  conv_lhs => rw [← Int.toNat_of_nonneg hs]
  norm_cast

theorem grab_range (s : Int) (j : Nat) (hs : 0 ≤ s) (hj : 10 ^ j < 2147483648) :
    0 ≤ grab_the_digit s ((j : Int) + 1) ∧ grab_the_digit s ((j : Int) + 1) < 10 := by
  rw [grab_nonneg s j hs hj]
  have : s.toNat / 10 ^ j % 10 < 10 := Nat.mod_lt _ (by decide)
  omega

theorem digitsLoop_nonpos (fuel : Nat) (n : Int) (td : Nat) (h : n ≤ 0) :
    digitsLoop fuel n td = td := by
  cases fuel with
  | zero => rfl
  | succ f =>
    have : ¬ n > 0 := by omega
    simp [digitsLoop, this]

/-- With enough fuel the `while` loop of `radixSortEdgesBySource` adds the number of
decimal digits of a positive `n` to the counter. -/
theorem digitsLoop_spec : ∀ (fuel : Nat) (n : Int) (td : Nat), 0 < n → n.toNat ≤ fuel →
    ∃ d, digitsLoop fuel n td = td + d ∧ 1 ≤ d ∧ ((10 ^ (d - 1) : Nat) : Int) ≤ n ∧
      n < ((10 ^ d : Nat) : Int) := by
  intro fuel
  induction fuel with
  | zero => intro n td h1 h2; omega
  | succ fuel ih =>
    intro n td h1 h2
    have hdiv : n.tdiv 10 = n / 10 := Int.tdiv_eq_ediv (by omega) (by decide)
    rw [digitsLoop, if_pos h1, hdiv]
    by_cases hsmall : n / 10 ≤ 0
    · refine ⟨1, ?_, le_refl _, ?_, ?_⟩
      · rw [digitsLoop_nonpos _ _ _ hsmall]
      · simp; omega
      · simp; omega
    · obtain ⟨d, hd, hd1, hlo, hhi⟩ := ih (n / 10) (td + 1) (by omega) (by omega)
      refine ⟨d + 1, by rw [hd]; omega, by omega, ?_, ?_⟩
      · have e : 10 ^ (d + 1 - 1) = 10 ^ (d - 1) * 10 := by
          rw [← pow_succ]; congr 1; omega
        rw [e]; push_cast at hlo ⊢; omega
      · have e : 10 ^ (d + 1) = 10 ^ d * 10 := pow_succ 10 d
        rw [e]; push_cast at hhi ⊢; omega

/-- For `numVertices ≥ 1` the value of `total_digits` is the number of decimal digits
of `numVertices`. -/
theorem totalDigits_spec (V : Int) (hV : 1 ≤ V) :
    1 ≤ totalDigits V ∧ ((10 ^ (totalDigits V - 1) : Nat) : Int) ≤ V ∧
      V < ((10 ^ totalDigits V : Nat) : Int) := by
  obtain ⟨d, hd, h1, h2, h3⟩ := digitsLoop_spec V.toNat V 0 (by omega) (le_refl _)
  have : totalDigits V = d := by rw [totalDigits, hd]; omega
  rw [this]
  exact ⟨h1, h2, h3⟩

theorem totalDigits_nonpos (V : Int) (hV : V ≤ 0) : totalDigits V = 0 :=
  digitsLoop_nonpos _ _ _ hV

/-- Every divisor `grab_the_digit` builds during the passes of a radix sort with
`numVertices` in the range of an `int` fits in an `int`. -/
theorem pow_lt_of_pass (V : Int) (hV : V < 2147483648) (i : Nat) (hi : i < totalDigits V) :
    10 ^ i < 2147483648 := by
  have hV1 : 1 ≤ V := by
    by_contra h
    rw [totalDigits_nonpos V (by omega)] at hi
    omega
  obtain ⟨_, h2, _⟩ := totalDigits_spec V hV1
  have : 10 ^ i ≤ 10 ^ (totalDigits V - 1) := Nat.pow_le_pow_right (by decide) (by omega)
  omega

/-! ## Composition of stable passes -/

theorem lex_iff (M a b k : Nat) (ha : a < M) : a + M * b = k ↔ a = k % M ∧ b = k / M := by
  have hM : 0 < M := by omega
  constructor
  · intro h
    subst h
    rw [Nat.add_mul_mod_self_left, Nat.mod_eq_of_lt ha, Nat.add_mul_div_left _ _ hM,
      Nat.div_eq_of_lt ha]
    exact ⟨rfl, by omega⟩
  · rintro ⟨h1, h2⟩
    rw [h1, h2]
    exact Nat.mod_add_div k M

theorem filter_lex (f g h : Edge → Nat) (M : Nat) (hf : ∀ e, f e < M)
    (hh : ∀ e, h e = f e + M * g e) (k : Nat) (L : List Edge) :
    L.filter (fun e => decide (h e = k)) =
      (L.filter (fun e => decide (g e = k / M))).filter (fun e => decide (f e = k % M)) := by
  rw [List.filter_filter]
  apply List.filter_congr
  intro x _
  rw [hh x]
  have := lex_iff M (f x) (g x) k (hf x)
  by_cases h1 : f x + M * g x = k
  · have h2 := this.mp h1
    simp [h1, h2.1.symm, h2.2.symm]
  · have h2 : ¬ (f x = k % M ∧ g x = k / M) := fun hc => h1 (this.mpr hc)
    simp only [h1, decide_False]
    by_cases h3 : f x = k % M
    · have h4 : ¬ g x = k / M := fun hc => h2 ⟨h3, hc⟩
      simp [h4]
    · simp [h3]

theorem pairwise_lex (f g h : Edge → Nat) (M : Nat) (hf : ∀ e, f e < M)
    (hh : ∀ e, h e = f e + M * g e) :
    ∀ out : List Edge, out.Pairwise (fun x y => g x ≤ g y) →
      (∀ k, (out.filter (fun e => decide (g e = k))).Pairwise (fun x y => f x ≤ f y)) →
      out.Pairwise (fun x y => h x ≤ h y) := by
  intro out
  induction out with
  | nil => intro _ _; exact List.Pairwise.nil
  | cons x t ih =>
    intro hg hgrp
    rw [List.pairwise_cons] at hg ⊢
    refine ⟨?_, ih hg.2 ?_⟩
    · intro y hy
      have hxy := hg.1 y hy
      rw [hh x, hh y]
      rcases Nat.lt_or_ge (g x) (g y) with hlt | hge
      · have h1 : M * (g x + 1) ≤ M * g y := Nat.mul_le_mul_left M hlt
        have h2 : M * (g x + 1) = M * g x + M := Nat.mul_succ M (g x)
        have := hf x
        omega
      · have heq : g y = g x := by omega
        have h1 := hgrp (g x)
        rw [List.filter_cons_of_pos (by simp), List.pairwise_cons] at h1
        have h2 := h1.1 y (List.mem_filter.mpr ⟨hy, by simp [heq]⟩)
        rw [heq]
        omega
    · intro k
      have h1 := hgrp k
      by_cases hk : g x = k
      · rw [List.filter_cons_of_pos (by simp [hk]), List.pairwise_cons] at h1
        exact h1.2
      · rwa [List.filter_cons_of_neg (by simp [hk])] at h1

/-- A stable sort by `f` followed by a stable sort by `g` is a stable sort by the
combined key `f + M * g`, where `f` stays below `M`. -/
theorem StableSortedBy.comp (f g h : Edge → Nat) (M : Nat) (hf : ∀ e, f e < M)
    (hh : ∀ e, h e = f e + M * g e) (l m out : List Edge)
    (h1 : StableSortedBy f l m) (h2 : StableSortedBy g m out) : StableSortedBy h l out := by
  refine ⟨pairwise_lex f g h M hf hh out h2.1 ?_, ?_⟩
  · intro k
    rw [h2.2 k]
    exact h1.1.sublist (List.filter_sublist m)
  · intro k
    rw [filter_lex f g h M hf hh k out, filter_lex f g h M hf hh k l, h2.2 (k / M),
      List.filter_filter, List.filter_filter]
    have e1 : ∀ L : List Edge,
        L.filter (fun a => decide (f a = k % M) && decide (g a = k / M)) =
        (L.filter (fun a => decide (f a = k % M))).filter (fun a => decide (g a = k / M)) := by
      intro L
      rw [List.filter_filter]
      apply List.filter_congr
      intro x _
      exact Bool.and_comm _ _
    rw [e1 m, e1 l, h1.2 (k % M)]

/-! ## radixSortSeq -/

theorem digitKey_eq (j : Nat) (hj : 10 ^ j < 2147483648) (e : Edge) (he : 0 ≤ e.src) :
    natKey (fun e => grab_the_digit e.src ((j : Int) + 1)) e = e.src.toNat / 10 ^ j % 10 := by
  simp only [natKey]
  rw [grab_nonneg e.src j he hj]
  exact Int.toNat_ofNat _

/-- The pass loop of `radixSortSeq` on non-negative sources: after `j`
passes, none of which builds a divisor outside the range of an `int`, both buffers
keep their sizes and the working buffer is the input stably sorted by the source
modulo `10 ^ j`; from the first pass on it is a copy of the output buffer. -/
theorem radixLoop_spec (tid : Nat → Nat → Fin 4) (es l : List Edge) (V : Int)
    (hsrc : ∀ e ∈ l, 0 ≤ e.src) (hcap : l.length ≤ es.length) :
    ∀ j, (∀ i, i < j → 10 ^ i < 2147483648) →
      ∃ out lj, forLoop (passStepSeq tid V (l.length : Int)) j ⟨es, l⟩ = some ⟨out, lj⟩ ∧
        out.length = es.length ∧ lj.length = l.length ∧
        StableSortedBy (fun e => e.src.toNat % 10 ^ j) l lj ∧
        (1 ≤ j → lj = out.take l.length) := by
  intro j
  induction j with
  | zero =>
    intro _
    refine ⟨es, l, rfl, rfl, rfl, ⟨?_, fun _ => rfl⟩, fun h => absurd h (by omega)⟩
    simp [List.pairwise_iff_forall_sublist, Nat.mod_one]
  | succ j ih =>
    intro hpow
    obtain ⟨out, lj, hrun, hlo, hll, hst, _⟩ := ih (fun i hi => hpow i (by omega))
    have hj : 10 ^ j < 2147483648 := hpow j (by omega)
    have hmem : ∀ e ∈ lj, e ∈ l := fun e he => (hst.perm).subset he
    have hkey : ∀ e ∈ lj, 0 ≤ grab_the_digit e.src ((j : Int) + 1) ∧
        grab_the_digit e.src ((j : Int) + 1) < 10 :=
      fun e he => grab_range e.src j (hsrc e (hmem e he)) hj
    obtain ⟨out2, hpass, hlen2, htake⟩ := my_countSort_spec (tid (j + 1)) out lj V
      ((j : Int) + 1) hkey (by omega)
    rw [hll] at hpass htake
    refine ⟨out2, out2.take l.length, ?_, by omega, ?_, ?_, fun _ => rfl⟩
    · rw [forLoop_succ, hrun]
      exact hpass
    · rw [List.length_take]; omega
    · have hb := bucketSort_stable (natKey fun e => grab_the_digit e.src ((j : Int) + 1)) 10 lj
        (natKey_lt _ 10 lj (by simpa using hkey))
      rw [← htake] at hb
      have hg : StableSortedBy (fun e => e.src.toNat / 10 ^ j % 10) lj (out2.take l.length) :=
        hb.congr _ _ lj _ (fun e he => digitKey_eq j hj e (hsrc e (hmem e he)))
      exact StableSortedBy.comp (fun e => e.src.toNat % 10 ^ j)
        (fun e => e.src.toNat / 10 ^ j % 10) (fun e => e.src.toNat % 10 ^ (j + 1)) (10 ^ j)
        (fun e => Nat.mod_lt _ (Nat.pow_pos (by decide)))
        (fun e => Nat.mod_pow_succ) l lj _ hst hg

/-- On non-negative sources and `numVertices` in the range of an `int`,
`radixSortSeq` returns; both buffers keep their sizes, and the working
buffer is the input stably sorted by the source modulo `10 ^ total_digits`. -/
theorem radixSort_spec (tid : Nat → Nat → Fin 4) (es l : List Edge) (V : Int)
    (hV : V < 2147483648) (hsrc : ∀ e ∈ l, 0 ≤ e.src) (hcap : l.length ≤ es.length) :
    ∃ out lj, radixSortSeq tid es l V (l.length : Int) = some ⟨out, lj⟩ ∧
      out.length = es.length ∧ lj.length = l.length ∧
      StableSortedBy (fun e => e.src.toNat % 10 ^ totalDigits V) l lj ∧
      (1 ≤ V → lj = out.take l.length) := by
  obtain ⟨out, lj, h1, h2, h3, h4, h5⟩ := radixLoop_spec tid es l V hsrc hcap (totalDigits V)
    (fun i hi => pow_lt_of_pass V hV i hi)
  exact ⟨out, lj, h1, h2, h3, h4, fun hV1 => h5 (totalDigits_spec V hV1).1⟩

/-- On sources in `[0, numVertices)`, `radixSortSeq` returns with the first
`numEdges` entries of the output buffer the stable sort of the input by source; for
`numVertices ≥ 1` the input buffer holds a copy of them. -/
theorem radixSort_stable (tid : Nat → Nat → Fin 4) (es l : List Edge) (V : Int)
    (hV : V < 2147483648) (hsrc : ∀ e ∈ l, 0 ≤ e.src ∧ e.src < V)
    (hcap : l.length ≤ es.length) :
    ∃ out lj, radixSortSeq tid es l V (l.length : Int) = some ⟨out, lj⟩ ∧
      out.length = es.length ∧
      StableSortedBy (natKey fun e => e.src) l (out.take l.length) ∧
      (1 ≤ V → lj = out.take l.length) := by
  obtain ⟨out, lj, h1, h2, h3, h4, h5⟩ := radixSort_spec tid es l V hV
    (fun e he => (hsrc e he).1) hcap
  refine ⟨out, lj, h1, h2, ?_, h5⟩
  by_cases hV1 : 1 ≤ V
  · rw [← h5 hV1]
    refine h4.congr _ _ l lj ?_
    intro e he
    obtain ⟨a, b⟩ := hsrc e he
    have hlt := (totalDigits_spec V hV1).2.2
    simp only [natKey]
    apply Nat.mod_eq_of_lt
    have : ((e.src.toNat : Nat) : Int) < ((10 ^ totalDigits V : Nat) : Int) := by omega
    exact_mod_cast this
  · have hnil : l = [] := by
      cases l with
      | nil => rfl
      | cons e t =>
        have := hsrc e (List.mem_cons_self e t)
        omega
    subst hnil
    simp [StableSortedBy]

/-! ## Consequences of stable sortedness used by several results -/

theorem src_pairwise_of_stable (l s : List Edge) (hnn : ∀ e ∈ l, 0 ≤ e.src)
    (h : StableSortedBy (natKey fun e => e.src) l s) :
    s.Pairwise (fun a b => a.src ≤ b.src) := by
  have hmem : ∀ e ∈ s, e ∈ l := fun e he => (h.perm).subset he
  refine h.1.imp_of_mem ?_
  intro a b ha hb hab
  have h1 := hnn a (hmem a ha)
  have h2 := hnn b (hmem b hb)
  simp only [natKey] at hab
  omega

theorem stable_of_src_pairwise (l : List Edge) (h : l.Pairwise (fun a b => a.src ≤ b.src)) :
    StableSortedBy (natKey fun e => e.src) l l := by
  refine StableSortedBy.self _ l (h.imp ?_)
  intro a b hab
  simp only [natKey]
  omega

theorem ordered_entries (out : List Edge) (n : Nat) (hn : n ≤ out.length)
    (h : (out.take n).Pairwise (fun a b => a.src ≤ b.src)) :
    ∀ i j, i < j → j < n →
      ∃ a b, out[i]? = some a ∧ out[j]? = some b ∧ a.src ≤ b.src := by
  intro i j hij hj
  have hi2 : i < out.length := by omega
  have hj2 : j < out.length := by omega
  refine ⟨out[i], out[j], List.getElem?_eq_getElem hi2, List.getElem?_eq_getElem hj2, ?_⟩
  rw [List.pairwise_iff_getElem] at h
  have := h i j (by rw [List.length_take]; omega) (by rw [List.length_take]; omega) hij
  simpa [List.getElem_take] using this

/-- An input already ordered by source comes out of `countSortEdgesBySource` unchanged. -/
theorem countSort_sorted_id (es l : List Edge) (V : Int)
    (hsrc : ∀ e ∈ l, 0 ≤ e.src ∧ e.src < V) (hcap : l.length ≤ es.length)
    (hsorted : l.Pairwise (fun a b => a.src ≤ b.src)) :
    ∃ out, countSortEdgesBySource es l V (l.length : Int) = some ⟨out, l⟩ ∧
      out.take l.length = l := by
  obtain ⟨out, h1, _, h3⟩ := countSort_stable es l V hsrc hcap
  exact ⟨out, h1, StableSortedBy.unique _ l _ _ h3 (stable_of_src_pairwise l hsorted)⟩

/-- An input already ordered by source comes out of `radixSortSeq` unchanged. -/
theorem radixSort_sorted_id (tid : Nat → Nat → Fin 4) (es l : List Edge) (V : Int)
    (hV : V < 2147483648) (hsrc : ∀ e ∈ l, 0 ≤ e.src ∧ e.src < V)
    (hcap : l.length ≤ es.length) (hsorted : l.Pairwise (fun a b => a.src ≤ b.src)) :
    ∃ out lj, radixSortSeq tid es l V (l.length : Int) = some ⟨out, lj⟩ ∧
      out.take l.length = l := by
  obtain ⟨out, lj, h1, _, h3, _⟩ := radixSort_stable tid es l V hV hsrc hcap
  exact ⟨out, lj, h1, StableSortedBy.unique _ l _ _ h3 (stable_of_src_pairwise l hsorted)⟩

/-! ## Results on the sort entry points -/

/-- C1: for an edge array of length `numEdges` whose sources all lie in
`[0, numVertices)` and an output buffer of capacity at least `numEdges`,
`countSortEdgesBySource` returns and its output is ordered by source: for all
positions `i < j < numEdges`, `edges_sorted[i].src ≤ edges_sorted[j].src`. -/
theorem countSort_output_ordered (edges_sorted edges : List Edge) (numVertices : Int)
    (hsrc : ∀ e ∈ edges, 0 ≤ e.src ∧ e.src < numVertices)
    (hcap : edges.length ≤ edges_sorted.length) :
    ∃ r, countSortEdgesBySource edges_sorted edges numVertices (edges.length : Int) = some r ∧
      ∀ i j, i < j → j < edges.length →
        ∃ a b, r.edges_sorted[i]? = some a ∧ r.edges_sorted[j]? = some b ∧ a.src ≤ b.src := by
  obtain ⟨out, h1, h2, h3⟩ := countSort_stable edges_sorted edges numVertices hsrc hcap
  exact ⟨⟨out, edges⟩, h1, ordered_entries out edges.length (by omega)
    (src_pairwise_of_stable edges _ (fun e he => (hsrc e he).1) h3)⟩

theorem countSort_output_ordered_witness :
    (∀ e ∈ sampleEdges, 0 ≤ e.src ∧ e.src < 4) ∧ sampleEdges.length ≤ (blank 5).length ∧
    ∃ r, countSortEdgesBySource (blank 5) sampleEdges 4 (sampleEdges.length : Int) = some r ∧
      ∀ i j, i < j → j < sampleEdges.length →
        ∃ a b, r.edges_sorted[i]? = some a ∧ r.edges_sorted[j]? = some b ∧ a.src ≤ b.src :=
  ⟨by decide, by decide, countSort_output_ordered (blank 5) sampleEdges 4 (by decide) (by decide)⟩

/-- C2: for an edge array of length `numEdges` whose sources all lie in
`[0, numVertices)` and an output buffer of capacity at least `numEdges`,
`countSortEdgesBySource` returns and the first `numEdges` entries of its output are a
permutation of the input (same multiset of `(src, dest)` pairs). -/
theorem countSort_output_perm (edges_sorted edges : List Edge) (numVertices : Int)
    (hsrc : ∀ e ∈ edges, 0 ≤ e.src ∧ e.src < numVertices)
    (hcap : edges.length ≤ edges_sorted.length) :
    ∃ r, countSortEdgesBySource edges_sorted edges numVertices (edges.length : Int) = some r ∧
      (r.edges_sorted.take edges.length).Perm edges ∧
      ((r.edges_sorted.take edges.length : List Edge) : Multiset Edge) = (edges : Multiset Edge) := by
  obtain ⟨out, h1, _, h3⟩ := countSort_stable edges_sorted edges numVertices hsrc hcap
  exact ⟨⟨out, edges⟩, h1, h3.perm, Multiset.coe_eq_coe.mpr h3.perm⟩

theorem countSort_output_perm_witness :
    (∀ e ∈ sampleEdges, 0 ≤ e.src ∧ e.src < 4) ∧ sampleEdges.length ≤ (blank 7).length ∧
    ∃ r, countSortEdgesBySource (blank 7) sampleEdges 4 (sampleEdges.length : Int) = some r ∧
      (r.edges_sorted.take sampleEdges.length).Perm sampleEdges ∧
      ((r.edges_sorted.take sampleEdges.length : List Edge) : Multiset Edge) =
        (sampleEdges : Multiset Edge) :=
  ⟨by decide, by decide, countSort_output_perm (blank 7) sampleEdges 4 (by decide) (by decide)⟩

/-! ## Placement positions of countSortEdgesBySource -/

theorem keyCount_take_mono (κ : Edge → Nat) (k : Nat) (l : List Edge) {a b : Nat} (h : a ≤ b) :
    keyCount κ k (l.take a) ≤ keyCount κ k (l.take b) := by
  have e : l.take a = (l.take b).take a := by
    rw [List.take_take, Nat.min_eq_left h]
  have := keyCount_take_drop κ k (l.take b) a
  rw [e]
  omega

theorem filter_getElem_count (κ : Edge → Nat) (l : List Edge) (i : Nat) (a : Edge)
    (ha : l[i]? = some a) :
    (l.filter (fun e => decide (κ e = κ a)))[keyCount κ (κ a) (l.take i)]? = some a := by
  obtain ⟨hi, hget⟩ := List.getElem?_eq_some.mp ha
  have hsplit : l.filter (fun e => decide (κ e = κ a)) =
      (l.take i).filter (fun e => decide (κ e = κ a)) ++
        (l.drop i).filter (fun e => decide (κ e = κ a)) := by
    rw [← List.filter_append, List.take_append_drop]
  rw [hsplit, List.getElem?_append_right (by rw [← keyCount_eq_length_filter]),
    ← keyCount_eq_length_filter, Nat.sub_self, List.drop_eq_getElem_cons hi, hget,
    List.filter_cons_of_pos (by simp)]
  exact List.getElem?_cons_zero

/-- A full run of `countSortEdgesBySource` on keys in range: the table, the final
state of the placement loop with its invariant, and the returned buffers. -/
theorem countSort_run (es l : List Edge) (V : Int) (hV : ∀ e ∈ l, 0 ≤ e.src ∧ e.src < V)
    (hcap : l.length ≤ es.length) :
    ∃ st, countSortEdgesBySource es l V (l.length : Int) = some ⟨st.edges_sorted, l⟩ ∧
      PlaceInv (natKey fun e => e.src) V.toNat l es.length 0 st := by
  obtain ⟨cnt, hc, hlen, hcnt⟩ := countSortTable_spec l V hV
  obtain ⟨st, hst, hinv⟩ := placeLoop_inv (fun e => e.src) V.toNat l es.length
    (srcKey_range l V hV) hcap cnt es hlen rfl hcnt l.length (le_refl _)
  rw [Nat.sub_self] at hinv
  refine ⟨st, ?_, hinv⟩
  simp only [countSortEdgesBySource, hc, bind, Option.bind, Int.toNat_ofNat, hst, pure]

/-- The output position of input index `i`: the edges with a smaller source come
first, then the earlier edges with the same source. -/
theorem countSortPos_eq (es l : List Edge) (V : Int) (hV : ∀ e ∈ l, 0 ≤ e.src ∧ e.src < V)
    (hcap : l.length ≤ es.length) (i : Nat) (a : Edge) (ha : l[i]? = some a) :
    countSortPos es l V (l.length : Int) i =
      some ((keyBelow (natKey fun e => e.src) (natKey (fun e => e.src) a) l
        + keyCount (natKey fun e => e.src) (natKey (fun e => e.src) a) (l.take i) : Nat) : Int) := by
  obtain ⟨hi, hget⟩ := List.getElem?_eq_some.mp ha
  obtain ⟨cnt, hc, hlen, hcnt⟩ := countSortTable_spec l V hV
  obtain ⟨st, hst, hinv⟩ := placeLoop_inv (fun e => e.src) V.toNat l es.length
    (srcKey_range l V hV) hcap cnt es hlen rfl hcnt (l.length - 1 - i) (by omega)
  have e1 : l.length - (l.length - 1 - i) = i + 1 := by omega
  rw [e1] at hinv
  have hmem : a ∈ l := hget ▸ List.getElem_mem hi
  obtain ⟨h0, h1⟩ := hV a hmem
  have hk : natKey (fun e => e.src) a < V.toNat := by simp only [natKey]; omega
  have hcv := hinv.2.2.1 _ hk
  rw [take_succ_getElem l i hi, keyCount_append, keyCount_single, hget, if_pos rfl] at hcv
  simp only [natKey] at hcv h0 ⊢
  simp only [countSortPos, hc, bind, Option.bind, Int.toNat_ofNat, hst, rd_nat, ha,
    rd_nonneg _ h0, hcv, pure]
  congr 1
  push_cast
  omega

/-- C3: `countSortEdgesBySource` is stable.  For an edge array of length `numEdges`
whose sources all lie in `[0, numVertices)`, an output buffer of capacity at least
`numEdges`, and input indices `i < j` holding edges `a` and `b` with the same source,
the sort returns, the placement loop writes `a` at an output position `p` and `b` at an
output position `q` with `p < q`, and the returned output holds `a` at `p` and `b` at `q`. -/
theorem countSort_stable_positions (edges_sorted edges : List Edge) (numVertices : Int)
    (hsrc : ∀ e ∈ edges, 0 ≤ e.src ∧ e.src < numVertices)
    (hcap : edges.length ≤ edges_sorted.length) (i j : Nat) (a b : Edge) (hij : i < j)
    (ha : edges[i]? = some a) (hb : edges[j]? = some b) (hkey : a.src = b.src) :
    ∃ r p q, countSortEdgesBySource edges_sorted edges numVertices (edges.length : Int) = some r ∧
      countSortPos edges_sorted edges numVertices (edges.length : Int) i = some p ∧
      countSortPos edges_sorted edges numVertices (edges.length : Int) j = some q ∧
      p < q ∧ rd r.edges_sorted p = some a ∧ rd r.edges_sorted q = some b := by
  obtain ⟨st, hrun, _, _, _, hout⟩ := countSort_run edges_sorted edges numVertices hsrc hcap
  have hpa := countSortPos_eq edges_sorted edges numVertices hsrc hcap i a ha
  have hpb := countSortPos_eq edges_sorted edges numVertices hsrc hcap j b hb
  have hkab : natKey (fun e => e.src) b = natKey (fun e => e.src) a := by
    simp only [natKey, hkey]
  rw [hkab] at hpb
  obtain ⟨hi, hgi⟩ := List.getElem?_eq_some.mp ha
  obtain ⟨hj, hgj⟩ := List.getElem?_eq_some.mp hb
  have hka : natKey (fun e => e.src) a < numVertices.toNat :=
    natKey_lt _ _ edges (srcKey_range edges numVertices hsrc) a (hgi ▸ List.getElem_mem hi)
  have hlt : keyCount (natKey fun e => e.src) (natKey (fun e => e.src) a) (edges.take i) <
      keyCount (natKey fun e => e.src) (natKey (fun e => e.src) a) (edges.take j) := by
    have h1 := keyCount_take_succ (natKey fun e => e.src) (natKey (fun e => e.src) a) edges i hi
    rw [hgi, if_pos rfl] at h1
    have h2 := keyCount_take_mono (natKey fun e => e.src) (natKey (fun e => e.src) a) edges
      (show i + 1 ≤ j by omega)
    omega
  have hlj : keyCount (natKey fun e => e.src) (natKey (fun e => e.src) a) (edges.take j) <
      keyCount (natKey fun e => e.src) (natKey (fun e => e.src) a) edges := by
    have h1 := keyCount_take_succ (natKey fun e => e.src) (natKey (fun e => e.src) a) edges j hj
    rw [hgj, if_pos hkab] at h1
    have h2 := keyCount_take_mono (natKey fun e => e.src) (natKey (fun e => e.src) a) edges
      (show j + 1 ≤ edges.length by omega)
    rw [List.take_length] at h2
    omega
  have hoa := hout _ hka _ (show keyCount (natKey fun e => e.src) (natKey (fun e => e.src) a)
    (edges.take i) < keyCount _ _ (edges.drop 0) by rw [List.drop_zero]; omega)
  have hob := hout _ hka _ (show keyCount (natKey fun e => e.src) (natKey (fun e => e.src) a)
    (edges.take j) < keyCount _ _ (edges.drop 0) by rw [List.drop_zero]; omega)
  simp only [List.take_zero, keyCount_nil, Nat.add_zero, List.drop_zero] at hoa hob
  refine ⟨_, _, _, hrun, hpa, hpb, by omega, ?_, ?_⟩
  · rw [rd_nat, hoa]
    exact filter_getElem_count _ edges i a ha
  · rw [rd_nat, hob, ← hkab]
    exact filter_getElem_count _ edges j b hb

theorem countSort_stable_positions_witness :
    ((∀ e ∈ sampleEdges, 0 ≤ e.src ∧ e.src < 4) ∧ sampleEdges.length ≤ (blank 5).length ∧
      (0 : Nat) < 2 ∧ sampleEdges[0]? = some (mkE 3 1) ∧ sampleEdges[2]? = some (mkE 3 4) ∧
      (mkE 3 1).src = (mkE 3 4).src) ∧
    (∃ r p q, countSortEdgesBySource (blank 5) sampleEdges 4 (sampleEdges.length : Int) = some r ∧
      countSortPos (blank 5) sampleEdges 4 (sampleEdges.length : Int) 0 = some p ∧
      countSortPos (blank 5) sampleEdges 4 (sampleEdges.length : Int) 2 = some q ∧
      p < q ∧ rd r.edges_sorted p = some (mkE 3 1) ∧ rd r.edges_sorted q = some (mkE 3 4)) ∧
    countSortEdgesBySource (blank 5) sampleEdges 4 5 = some ⟨sampleSorted, sampleEdges⟩ :=
  ⟨⟨by decide, by decide, by decide, by decide, by decide, by decide⟩,
    countSort_stable_positions (blank 5) sampleEdges 4 (by decide) (by decide) 0 2 (mkE 3 1)
      (mkE 3 4) (by decide) (by decide) (by decide) (by decide),
    by decide⟩

/-! ## The input buffer, and keys out of range -/

theorem wr_length {α : Type} (a a2 : List α) (x : Int) (v : α) (h : wr a x v = some a2) :
    a2.length = a.length := by
  unfold wr at h
  split at h
  · injection h with h; rw [← h, List.length_set]
  · exact absurd h (by simp)

theorem digit_pos_form (digit : Int) (hdig : 1 ≤ digit) :
    digit = (((digit - 1).toNat : Nat) : Int) + 1 := by
  omega

/-- The list of decimal digits of `n`, read at index `i`, is `n / 10 ^ i % 10`. -/
theorem getD_digits_ten : ∀ (i n : Nat), (Nat.digits 10 n).getD i 0 = n / 10 ^ i % 10 := by
  intro i
  induction i with
  | zero =>
    intro n
    rcases Nat.eq_zero_or_pos n with h | h
    · subst h; simp
    · rw [Nat.digits_def' (by decide) h]; simp
  | succ i ih =>
    intro n
    rcases Nat.eq_zero_or_pos n with h | h
    · subst h; simp
    · rw [Nat.digits_def' (by decide) h, List.getD_cons_succ, ih, pow_succ,
        Nat.mul_comm, Nat.div_div_eq_div_mul]

/-- C13: for every non-negative `num` and every `digit ≥ 1` with `10^(digit-1)`
representable in an `int`, `grab_the_digit(num, digit) = (num / 10^(digit-1)) mod 10`, a
value in `0..9`, equal to the `digit`-th least-significant decimal digit of `num`. -/
theorem grab_the_digit_value (num digit : Int) (hnum : 0 ≤ num) (hdig : 1 ≤ digit)
    (hfit : 10 ^ (digit - 1).toNat < 2147483648) :
    grab_the_digit num digit = (num / (10 : Int) ^ (digit - 1).toNat) % 10 ∧
    0 ≤ grab_the_digit num digit ∧ grab_the_digit num digit ≤ 9 ∧
    grab_the_digit num digit =
      (((Nat.digits 10 num.toNat).getD (digit - 1).toNat 0 : Nat) : Int) := by
  have hg : grab_the_digit num digit =
      ((num.toNat / 10 ^ (digit - 1).toNat % 10 : Nat) : Int) := by
    conv_lhs => rw [digit_pos_form digit hdig]
    exact grab_nonneg num _ hnum hfit
  have hlt : num.toNat / 10 ^ (digit - 1).toNat % 10 < 10 := Nat.mod_lt _ (by decide)
  refine ⟨?_, by rw [hg]; omega, by rw [hg]; omega, by rw [hg, getD_digits_ten]⟩
  rw [hg]
  conv_rhs => rw [← Int.toNat_of_nonneg hnum]
  norm_cast

theorem grab_the_digit_value_witness :
    ((0 : Int) ≤ 4725 ∧ (1 : Int) ≤ 3 ∧ 10 ^ ((3 : Int) - 1).toNat < 2147483648) ∧
    (grab_the_digit 4725 3 = ((4725 : Int) / (10 : Int) ^ ((3 : Int) - 1).toNat) % 10 ∧
    0 ≤ grab_the_digit 4725 3 ∧ grab_the_digit 4725 3 ≤ 9 ∧
    grab_the_digit 4725 3 =
      (((Nat.digits 10 (4725 : Int).toNat).getD ((3 : Int) - 1).toNat 0 : Nat) : Int)) ∧
    grab_the_digit 4725 3 = 7 :=
  ⟨⟨by decide, by decide, by decide⟩,
    grab_the_digit_value 4725 3 (by decide) (by decide) (by decide), by decide⟩

theorem keyBelow_natKey (key : Edge → Int) (l : List Edge) (hnn : ∀ e ∈ l, 0 ≤ key e) (k : Nat) :
    keyBelow (natKey key) (k + 1) l = l.countP (fun e => decide (key e ≤ (k : Int))) := by
  rw [keyBelow]
  apply List.countP_congr
  intro x hx
  have := hnn x hx
  simp only [natKey, decide_eq_true_eq]
  omega

/-- C15: in `countSortEdgesBySource`, for an edge array whose sources lie in
`[0, numVertices)`, the table is built without an out-of-range access and, after the
cumulative-sum loop and before the placement loop, `vertex_cnt[k]` is the number of edges
with source `≤ k` for every `k` in `[0, numVertices)`; in particular
`vertex_cnt[numVertices-1] = numEdges` when `numVertices ≥ 1`. -/
theorem countSort_cumulative_table (edges : List Edge) (numVertices : Int)
    (hsrc : ∀ e ∈ edges, 0 ≤ e.src ∧ e.src < numVertices) :
    ∃ cnt, countSortTable edges numVertices (edges.length : Int) = some cnt ∧
      (cnt.length : Int) = max numVertices 0 ∧
      (∀ k : Int, 0 ≤ k → k < numVertices →
        rd cnt k = some ((edges.countP (fun e => decide (e.src ≤ k)) : Nat) : Int)) ∧
      (1 ≤ numVertices → rd cnt (numVertices - 1) = some (edges.length : Int)) := by
  obtain ⟨cnt, hc, hlen, hcnt⟩ := countSortTable_spec edges numVertices hsrc
  have hk : ∀ k : Int, 0 ≤ k → k < numVertices →
      rd cnt k = some ((edges.countP (fun e => decide (e.src ≤ k)) : Nat) : Int) := by
    intro k h0 h1
    rw [rd_nonneg _ h0, hcnt k.toNat (by omega),
      keyBelow_natKey (fun e => e.src) edges (fun e he => (hsrc e he).1) k.toNat,
      Int.toNat_of_nonneg h0]
  refine ⟨cnt, hc, by rw [hlen]; omega, hk, ?_⟩
  intro hV
  rw [hk (numVertices - 1) (by omega) (by omega)]
  congr 2
  rw [List.countP_eq_length]
  intro e he
  have := (hsrc e he).2
  simp only [decide_eq_true_eq]
  omega

theorem countSort_cumulative_table_witness :
    (∀ e ∈ sampleEdges, 0 ≤ e.src ∧ e.src < 4) ∧
    (∃ cnt, countSortTable sampleEdges 4 (sampleEdges.length : Int) = some cnt ∧
      (cnt.length : Int) = max 4 0 ∧
      (∀ k : Int, 0 ≤ k → k < 4 →
        rd cnt k = some ((sampleEdges.countP (fun e => decide (e.src ≤ k)) : Nat) : Int)) ∧
      ((1 : Int) ≤ 4 → rd cnt (4 - 1) = some (sampleEdges.length : Int))) ∧
    countSortTable sampleEdges 4 5 = some [1, 3, 3, 5] :=
  ⟨by decide, countSort_cumulative_table sampleEdges 4 (by decide), by decide⟩

/-- C16: under the precondition that every `edges[i].src` lies in `[0, numVertices)` and
the output buffer has capacity `≥ numEdges`, every index `countSortEdgesBySource` uses is
in range: the table is built and the sort returns (no access takes the out-of-bounds
branch), and for each input index `i` the count-table index `edges[i].src` is inside the
table and the placement position `pos = vertex_cnt[key] - 1` is in `[0, numEdges)`, hence
inside the output buffer. -/
theorem countSort_indices_in_range (edges_sorted edges : List Edge) (numVertices : Int)
    (hsrc : ∀ e ∈ edges, 0 ≤ e.src ∧ e.src < numVertices)
    (hcap : edges.length ≤ edges_sorted.length) :
    ∃ cnt r, countSortTable edges numVertices (edges.length : Int) = some cnt ∧
      countSortEdgesBySource edges_sorted edges numVertices (edges.length : Int) = some r ∧
      r.edges_sorted.length = edges_sorted.length ∧
      ∀ i, i < edges.length →
        ∃ e pos, edges[i]? = some e ∧ 0 ≤ e.src ∧ e.src < (cnt.length : Int) ∧
          countSortPos edges_sorted edges numVertices (edges.length : Int) i = some pos ∧
          0 ≤ pos ∧ pos < (edges.length : Int) ∧ pos < (edges_sorted.length : Int) := by
  obtain ⟨cnt, hc, hlen, _⟩ := countSortTable_spec edges numVertices hsrc
  obtain ⟨out, h1, h2, _⟩ := countSort_spec edges_sorted edges numVertices hsrc hcap
  refine ⟨cnt, _, hc, h1, h2, ?_⟩
  intro i hi
  have hget : edges[i]? = some edges[i] := List.getElem?_eq_getElem hi
  obtain ⟨h0, hV⟩ := hsrc edges[i] (List.getElem_mem hi)
  have hpos := countSortPos_eq edges_sorted edges numVertices hsrc hcap i edges[i] hget
  have a1 := keyCount_take_succ (natKey fun e => e.src) (natKey (fun e => e.src) edges[i]) edges i hi
  rw [if_pos rfl] at a1
  have a2 := keyCount_take_mono (natKey fun e => e.src) (natKey (fun e => e.src) edges[i]) edges
    (show i + 1 ≤ edges.length by omega)
  rw [List.take_length] at a2
  have a3 := keyBelow_succ (natKey fun e => e.src) (natKey (fun e => e.src) edges[i]) edges
  have a4 := keyBelow_le_length (natKey fun e => e.src) (natKey (fun e => e.src) edges[i] + 1) edges
  refine ⟨edges[i], _, hget, h0, by rw [hlen]; omega, hpos, ?_, ?_, ?_⟩
  · exact Int.ofNat_nonneg _
  · exact_mod_cast (show keyBelow (natKey fun e => e.src) (natKey (fun e => e.src) edges[i]) edges
      + keyCount (natKey fun e => e.src) (natKey (fun e => e.src) edges[i]) (edges.take i)
      < edges.length by omega)
  · exact_mod_cast (show keyBelow (natKey fun e => e.src) (natKey (fun e => e.src) edges[i]) edges
      + keyCount (natKey fun e => e.src) (natKey (fun e => e.src) edges[i]) (edges.take i)
      < edges_sorted.length by omega)

theorem countSort_indices_in_range_witness :
    ((∀ e ∈ sampleEdges, 0 ≤ e.src ∧ e.src < 4) ∧ sampleEdges.length ≤ (blank 5).length) ∧
    (∃ cnt r, countSortTable sampleEdges 4 (sampleEdges.length : Int) = some cnt ∧
      countSortEdgesBySource (blank 5) sampleEdges 4 (sampleEdges.length : Int) = some r ∧
      r.edges_sorted.length = (blank 5).length ∧
      ∀ i, i < sampleEdges.length →
        ∃ e pos, sampleEdges[i]? = some e ∧ 0 ≤ e.src ∧ e.src < (cnt.length : Int) ∧
          countSortPos (blank 5) sampleEdges 4 (sampleEdges.length : Int) i = some pos ∧
          0 ≤ pos ∧ pos < (sampleEdges.length : Int) ∧ pos < ((blank 5).length : Int)) :=
  ⟨⟨by decide, by decide⟩,
    countSort_indices_in_range (blank 5) sampleEdges 4 (by decide) (by decide)⟩

/-! ## Overflow and the key bound -/

theorem modLoopExact_eq (k : Nat) : modLoopExact k = ((10 ^ k : Nat) : Int) := by
  induction k with
  | zero => rfl
  | succ k ih => rw [modLoopExact, ih, pow_succ]; push_cast; rfl

/-- C19: no overflow in digit extraction.  For every `numVertices` in `[1, 2^31 - 1]` and
every digit position `radixSortEdgesBySource` passes to `my_countSort`
(`1 ≤ digit ≤ total_digits`), the divisor `10^(digit-1)` that `grab_the_digit` builds is at
most `numVertices`; every intermediate product lies in the range of a 32-bit signed
`int`, where the wrapped product equals the exact one; and `grab_the_digit` returns what
the computation over the integers returns. -/
theorem radix_divisor_no_overflow (numVertices digit : Int) (hV1 : 1 ≤ numVertices)
    (hV : numVertices ≤ 2147483647) (hd1 : 1 ≤ digit)
    (hd : digit ≤ (totalDigits numVertices : Int)) :
    modLoopExact (digit - 1).toNat ≤ numVertices ∧
    (∀ k, k ≤ (digit - 1).toNat →
      -2147483648 ≤ modLoopExact k ∧ modLoopExact k ≤ 2147483647 ∧
        modLoop k = modLoopExact k) ∧
    ∀ num : Int, grab_the_digit num digit = grabExact num digit := by
  obtain ⟨_, hlo, _⟩ := totalDigits_spec numVertices hV1
  have hle : ∀ k, k ≤ (digit - 1).toNat → 10 ^ k ≤ 10 ^ (totalDigits numVertices - 1) := by
    intro k hk
    exact Nat.pow_le_pow_right (by decide) (by omega)
  have hall : ∀ k, k ≤ (digit - 1).toNat →
      -2147483648 ≤ modLoopExact k ∧ modLoopExact k ≤ 2147483647 ∧
        modLoop k = modLoopExact k := by
    intro k hk
    have h1 : ((10 ^ k : Nat) : Int) ≤ ((10 ^ (totalDigits numVertices - 1) : Nat) : Int) := by
      exact_mod_cast hle k hk
    have h0 : (0 : Int) ≤ ((10 ^ k : Nat) : Int) := Int.ofNat_nonneg _
    have h2 : 10 ^ k < 2147483648 := by
      have : ((10 ^ k : Nat) : Int) < 2147483648 := by omega
      exact_mod_cast this
    rw [modLoopExact_eq, modLoop_eq k h2]
    refine ⟨by omega, by omega, rfl⟩
  refine ⟨?_, hall, ?_⟩
  · rw [modLoopExact_eq]
    have : ((10 ^ (digit - 1).toNat : Nat) : Int) ≤
        ((10 ^ (totalDigits numVertices - 1) : Nat) : Int) := by
      exact_mod_cast hle (digit - 1).toNat (le_refl _)
    omega
  · intro num
    rw [grab_the_digit, grabExact, (hall _ (le_refl _)).2.2]

theorem radix_divisor_no_overflow_witness :
    ((1 : Int) ≤ 2147483647 ∧ (2147483647 : Int) ≤ 2147483647 ∧ (1 : Int) ≤ 10 ∧
      (10 : Int) ≤ (totalDigits 2147483647 : Int)) ∧
    (modLoopExact ((10 : Int) - 1).toNat ≤ 2147483647 ∧
    (∀ k, k ≤ ((10 : Int) - 1).toNat →
      -2147483648 ≤ modLoopExact k ∧ modLoopExact k ≤ 2147483647 ∧
        modLoop k = modLoopExact k) ∧
    ∀ num : Int, grab_the_digit num 10 = grabExact num 10) :=
  ⟨⟨by decide, by decide, by decide, by decide⟩,
    radix_divisor_no_overflow 2147483647 10 (by decide) (by decide) (by decide) (by decide)⟩

/-! ## The executions that run one iteration at a time -/

/-- When the three statements of an iteration run without any statement of another
thread in between, they act on the table as `seqCountStep`. -/
theorem iterStmts_run (tid : Nat → Fin 4) (edges : List Edge) (digit : Int) (i : Nat)
    (s : CountShared) :
    (runCountStmts edges digit (iterStmts (tid i) i) s).map CountShared.vertex_cnt_t =
      seqCountStep tid edges digit i s.vertex_cnt_t := by
  simp only [iterStmts, runCountStmts, countStmtStep, seqCountStep, bind, pure]
  cases rd edges (i : Int) with
  | none => rfl
  | some e =>
    simp only [Option.bind]
    cases rd s.vertex_cnt_t (10 * (((tid i).val : Nat) : Int) + grab_the_digit e.src digit) with
    | none => rfl
    | some c =>
      simp only []
      cases wr s.vertex_cnt_t (10 * (((tid i).val : Nat) : Int) + grab_the_digit e.src digit)
        (c + 1) with
      | none => rfl
      | some t => rfl

theorem runCount_append (edges : List Edge) (digit : Int)
    (a b : List (Fin 4 × Nat × CountStmt)) (s : CountShared) :
    runCountStmts edges digit (a ++ b) s =
      (runCountStmts edges digit a s).bind (runCountStmts edges digit b) := by
  induction a generalizing s with
  | nil => rfl
  | cons ev a ih =>
    obtain ⟨t, i, c⟩ := ev
    simp only [List.cons_append, runCountStmts]
    cases countStmtStep edges digit t i c s with
    | none => rfl
    | some s2 => exact ih s2

/-- The counting loop run one iteration at a time acts on the table as the loop whose
body is `seqCountStep`. -/
theorem seqCount_run (tid : Nat → Fin 4) (edges : List Edge) (digit : Int) (s : CountShared) :
    ∀ n, (runCountStmts edges digit (seqCountStmts tid n) s).map CountShared.vertex_cnt_t =
      forLoop (seqCountStep tid edges digit) n s.vertex_cnt_t := by
  intro n
  induction n with
  | zero => rfl
  | succ n ih =>
    rw [seqCountStmts, runCount_append, forLoop_succ, ← ih]
    cases runCountStmts edges digit (seqCountStmts tid n) s with
    | none => rfl
    | some s2 => exact iterStmts_run tid edges digit n s2

theorem seqCountStep_length (tid : Nat → Fin 4) (l : List Edge) (digit : Int) (i : Nat)
    (ct ct2 : List Int) (h : seqCountStep tid l digit i ct = some ct2) :
    ct2.length = ct.length := by
  simp only [seqCountStep, bind, Option.bind_eq_some] at h
  obtain ⟨e, _, v, _, hw⟩ := h
  exact wr_length _ _ _ _ hw

theorem seqCountLoop_length (tid : Nat → Fin 4) (l : List Edge) (digit : Int) (c0 : List Int) :
    ∀ i c2, forLoop (seqCountStep tid l digit) i c0 = some c2 → c2.length = c0.length := by
  intro i
  induction i with
  | zero => intro c2 h; injection h with h; rw [← h]
  | succ i ih =>
    intro c2 h
    rw [forLoop_succ, Option.bind_eq_some] at h
    obtain ⟨c1, h1, h2⟩ := h
    rw [seqCountStep_length tid l digit i c1 c2 h2, ih c1 h1]

theorem redStep_set (ct : List Int) (τ i : Nat) (rest : List Nat) (stmt : RedStmt)
    (sh : RedShared) (ths : List RedThread) (hτ : τ < ths.length) :
    redStep ct τ ⟨sh, ths.set τ ⟨i :: rest, stmt⟩⟩ =
      (redStmtStep ct i stmt sh).map fun r =>
        ⟨r.1, ths.set τ (redAdvance ⟨i :: rest, stmt⟩ r.2)⟩ := by
  simp only [redStep, List.getElem?_set_self hτ, List.set_set]

theorem rd_slot (ct : List Int) (h : ct.length = 40) (k : Nat) (hk : k < 40) :
    rd ct (k : Int) = some (ct.getD k 0) := by
  have hk : k < ct.length := by omega
  rw [rd_nat, List.getElem?_eq_getElem hk, List.getD_eq_getElem _ _ hk]

theorem red_iteration_aux (ct : List Int) (τ i : Nat) (hi : i < 10)
    (rest : List Nat) (sh : RedShared) (hvc : sh.vertex_cnt.length = 10)
    (ths : List RedThread) (hτ : τ < ths.length) (a0 a1 a2 a3 : Int)
    (r0 : rd ct ((i : Int)) = some a0) (r1 : rd ct (10 + (i : Int)) = some a1)
    (r2 : rd ct (20 + (i : Int)) = some a2) (r3 : rd ct (30 + (i : Int)) = some a3) :
    runRedStmts ct (List.replicate 16 τ) ⟨sh, ths.set τ ⟨i :: rest, RedStmt.zeroS⟩⟩ =
      some ⟨⟨a0 + a1 + a2 + a3, 4, sh.vertex_cnt.set i (a0 + a1 + a2 + a3)⟩,
        ths.set τ ⟨rest, RedStmt.zeroS⟩⟩ := by
  simp [List.replicate, runRedStmts, redStep_set, hτ, redStmtStep, redAdvance, r0, r1, r2, r3,
    wr_nat, hvc, hi]

/-- The sixteen statements of an iteration of the reduction loop, run by a thread
without a statement of another thread in between, store the sum of the four slices. -/
theorem red_iteration (ct : List Int) (h : ct.length = 40) (τ i : Nat) (hi : i < 10)
    (rest : List Nat) (sh : RedShared) (hvc : sh.vertex_cnt.length = 10)
    (ths : List RedThread) (hτ : τ < ths.length) :
    runRedStmts ct (List.replicate 16 τ) ⟨sh, ths.set τ ⟨i :: rest, RedStmt.zeroS⟩⟩ =
      some ⟨⟨slotSum ct i, 4, sh.vertex_cnt.set i (slotSum ct i)⟩,
        ths.set τ ⟨rest, RedStmt.zeroS⟩⟩ := by
  apply red_iteration_aux ct τ i hi rest sh hvc ths hτ
  · exact rd_slot ct h i (by omega)
  · have := rd_slot ct h (10 + i) (by omega); rwa [Nat.cast_add] at this
  · have := rd_slot ct h (20 + i) (by omega); rwa [Nat.cast_add] at this
  · have := rd_slot ct h (30 + i) (by omega); rwa [Nat.cast_add] at this

theorem runRed_append (ct : List Int) (a b : List Nat) (st : RedState) :
    runRedStmts ct (a ++ b) st = (runRedStmts ct a st).bind (runRedStmts ct b) := by
  induction a generalizing st with
  | nil => rfl
  | cons τ a ih =>
    simp only [List.cons_append, runRedStmts]
    cases redStep ct τ st with
    | none => rfl
    | some st2 => exact ih st2

theorem redThreads_length (a b c d : List Nat) : (redThreads a b c d).length = 4 := rfl

theorem red_it (ct : List Int) (h : ct.length = 40) (τ i : Nat) (hi : i < 10)
    (rest : List Nat) (sh : RedShared) (hvc : sh.vertex_cnt.length = 10)
    (ths : List RedThread) (hτ : τ < ths.length) (more : List Nat) :
    runRedStmts ct (List.replicate 16 τ ++ more) ⟨sh, ths.set τ ⟨i :: rest, RedStmt.zeroS⟩⟩ =
      runRedStmts ct more ⟨⟨slotSum ct i, 4, sh.vertex_cnt.set i (slotSum ct i)⟩,
        ths.set τ ⟨rest, RedStmt.zeroS⟩⟩ := by
  rw [runRed_append, red_iteration ct h τ i hi rest sh hvc ths hτ]
  rfl

theorem red_it0 (ct : List Int) (h : ct.length = 40) (i : Nat) (hi : i < 10)
    (rest b c d : List Nat) (s t : Int) (vc : List Int) (hvc : vc.length = 10)
    (more : List Nat) :
    runRedStmts ct (List.replicate 16 0 ++ more) ⟨⟨s, t, vc⟩, redThreads (i :: rest) b c d⟩ =
      runRedStmts ct more ⟨⟨slotSum ct i, 4, vc.set i (slotSum ct i)⟩, redThreads rest b c d⟩ :=
  red_it ct h 0 i hi rest ⟨s, t, vc⟩ hvc (redThreads (i :: rest) b c d)
    (by rw [redThreads_length]; decide) more

theorem red_it1 (ct : List Int) (h : ct.length = 40) (i : Nat) (hi : i < 10)
    (rest a c d : List Nat) (s t : Int) (vc : List Int) (hvc : vc.length = 10)
    (more : List Nat) :
    runRedStmts ct (List.replicate 16 1 ++ more) ⟨⟨s, t, vc⟩, redThreads a (i :: rest) c d⟩ =
      runRedStmts ct more ⟨⟨slotSum ct i, 4, vc.set i (slotSum ct i)⟩, redThreads a rest c d⟩ :=
  red_it ct h 1 i hi rest ⟨s, t, vc⟩ hvc (redThreads a (i :: rest) c d)
    (by rw [redThreads_length]; decide) more

theorem red_it2 (ct : List Int) (h : ct.length = 40) (i : Nat) (hi : i < 10)
    (rest a b d : List Nat) (s t : Int) (vc : List Int) (hvc : vc.length = 10)
    (more : List Nat) :
    runRedStmts ct (List.replicate 16 2 ++ more) ⟨⟨s, t, vc⟩, redThreads a b (i :: rest) d⟩ =
      runRedStmts ct more ⟨⟨slotSum ct i, 4, vc.set i (slotSum ct i)⟩, redThreads a b rest d⟩ :=
  red_it ct h 2 i hi rest ⟨s, t, vc⟩ hvc (redThreads a b (i :: rest) d)
    (by rw [redThreads_length]; decide) more

theorem red_it3 (ct : List Int) (h : ct.length = 40) (i : Nat) (hi : i < 10)
    (rest a b c : List Nat) (s t : Int) (vc : List Int) (hvc : vc.length = 10)
    (more : List Nat) :
    runRedStmts ct (List.replicate 16 3 ++ more) ⟨⟨s, t, vc⟩, redThreads a b c (i :: rest)⟩ =
      runRedStmts ct more ⟨⟨slotSum ct i, 4, vc.set i (slotSum ct i)⟩, redThreads a b c rest⟩ :=
  red_it ct h 3 i hi rest ⟨s, t, vc⟩ hvc (redThreads a b c (i :: rest))
    (by rw [redThreads_length]; decide) more

/-- The reduction loop run one iteration at a time on a 40-entry table stays inside
the tables, finishes every iteration and leaves `seqReduce` in `vertex_cnt`. -/
theorem seqRed_spec (ct : List Int) (h : ct.length = 40) :
    runRedStmts ct seqRedStmts (redInit staticChunks) =
      some ⟨⟨slotSum ct 9, 4, seqReduce ct⟩, redThreads [] [] [] []⟩ := by
  have e : seqRedStmts =
      List.replicate 16 0 ++ (List.replicate 16 0 ++ (List.replicate 16 0 ++
      (List.replicate 16 1 ++ (List.replicate 16 1 ++ (List.replicate 16 1 ++
      (List.replicate 16 2 ++ (List.replicate 16 2 ++
      (List.replicate 16 3 ++ (List.replicate 16 3 ++ []))))))))) := by decide
  have e2 : redInit staticChunks =
      ⟨⟨0, 0, List.replicate 10 0⟩, redThreads [0, 1, 2] [3, 4, 5] [6, 7] [8, 9]⟩ := rfl
  rw [e, e2,
    red_it0 ct h 0 (by decide) _ _ _ _ _ _ _ (by simp),
    red_it0 ct h 1 (by decide) _ _ _ _ _ _ _ (by simp),
    red_it0 ct h 2 (by decide) _ _ _ _ _ _ _ (by simp),
    red_it1 ct h 3 (by decide) _ _ _ _ _ _ _ (by simp),
    red_it1 ct h 4 (by decide) _ _ _ _ _ _ _ (by simp),
    red_it1 ct h 5 (by decide) _ _ _ _ _ _ _ (by simp),
    red_it2 ct h 6 (by decide) _ _ _ _ _ _ _ (by simp),
    red_it2 ct h 7 (by decide) _ _ _ _ _ _ _ (by simp),
    red_it3 ct h 8 (by decide) _ _ _ _ _ _ _ (by simp),
    red_it3 ct h 9 (by decide) _ _ _ _ _ _ _ (by simp)]
  simp only [runRedStmts]
  congr 3
  simp [seqReduce, fold4, slotSum, List.range_succ, List.replicate]

/-- A pass of `my_countSort` under the schedule that runs both parallel loops one
iteration at a time is `my_countSortSeq`. -/
theorem my_countSort_seq (tid : Nat → Fin 4) (es l : List Edge) (V n digit : Int) :
    my_countSort (seqSchedule tid n.toNat) es l V n digit = my_countSortSeq tid es l V n digit := by
  have hcnt := seqCount_run tid l digit ⟨0, 0, List.replicate 40 0⟩ n.toNat
  simp only [my_countSort, my_countSortSeq, seqDigitTable, seqSchedule, bind]
  cases hrun : runCountStmts l digit (seqCountStmts tid n.toNat) ⟨0, 0, List.replicate 40 0⟩ with
  | none =>
    rw [hrun] at hcnt
    rw [← hcnt]
    rfl
  | some cs =>
    rw [hrun] at hcnt
    have hlen : cs.vertex_cnt_t.length = 40 := by
      have := seqCountLoop_length tid l digit (List.replicate 40 0) n.toNat cs.vertex_cnt_t
        hcnt.symm
      rwa [List.length_replicate] at this
    rw [← hcnt]
    simp only [Option.map, Option.bind, seqRed_spec cs.vertex_cnt_t hlen]

theorem forLoop_congr {σ : Type} (f g : Nat → σ → Option σ) (h : ∀ j s, f j s = g j s) :
    ∀ k s, forLoop f k s = forLoop g k s := by
  intro k
  induction k with
  | zero => intro s; rfl
  | succ k ih =>
    intro s
    rw [forLoop_succ, forLoop_succ, ih s]
    cases forLoop g k s with
    | none => rfl
    | some s2 => exact h k s2

/-- The radix sort under the schedules that run every pass one iteration at a time
is `radixSortSeq`. -/
theorem radixSort_seq (tid : Nat → Nat → Fin 4) (es l : List Edge) (V n : Int) :
    radixSortEdgesBySource (seqPasses tid n.toNat) es l V n = radixSortSeq tid es l V n := by
  unfold radixSortEdgesBySource radixSortSeq
  apply forLoop_congr
  intro j b
  exact my_countSort_seq (tid (j + 1)) b.edges_sorted b.edges V n ((j : Int) + 1)

/-! ## Facts that hold under every schedule -/

/-- The pass loop of `radixSortEdgesBySource` is the left-to-right run of `my_countSort`
over the digit positions `1, 2, ..., d`. -/
theorem passLoop_eq_foldlM (sched : Nat → PassSchedule) (V n : Int) (b : Buffers) :
    ∀ d, forLoop (passStep sched V n) d b =
      (List.range' 1 d).foldlM
        (fun st digi => my_countSort (sched digi) st.edges_sorted st.edges V n (digi : Int)) b := by
  intro d
  induction d with
  | zero => rfl
  | succ d ih =>
    rw [forLoop_succ, ih, List.range'_concat, List.foldlM_append]
    have e : 1 + 1 * d = d + 1 := by omega
    rw [e]
    simp only [bind, List.foldlM_cons, List.foldlM_nil, passStep, pure]
    congr 1
    funext st
    simp only [Nat.cast_add, Nat.cast_one]
    cases my_countSort (sched (d + 1)) st.edges_sorted st.edges V n ((d : Int) + 1) <;> rfl

/-! ## The one-iteration-at-a-time schedules are executions -/

theorem filter_iterStmts (t u : Fin 4) (i : Nat) :
    (iterStmts u i).filter (fun e => decide (e.1 = t)) =
      if u = t then iterStmts t i else [] := by
  by_cases h : u = t
  · subst h; simp [iterStmts]
  · simp [iterStmts, h]

theorem filter_range_succ (p : Nat → Bool) (n : Nat) :
    (List.range (n + 1)).filter p = (List.range n).filter p ++ if p n then [n] else [] := by
  rw [List.range_succ, List.filter_append]
  by_cases h : p n <;> simp [h]

theorem seqCount_filter (tid : Nat → Fin 4) (t : Fin 4) :
    ∀ n, (seqCountStmts tid n).filter (fun e => decide (e.1 = t)) =
      ((List.range n).filter (fun i => decide (tid i = t))).flatMap (iterStmts t) := by
  intro n
  induction n with
  | zero => rfl
  | succ n ih =>
    rw [seqCountStmts, List.filter_append, ih, filter_iterStmts, filter_range_succ,
      List.flatMap_append]
    by_cases h : tid n = t <;> simp [h]

theorem seqCount_threadIters (tid : Nat → Fin 4) (t : Fin 4) :
    ∀ n, threadIters t (seqCountStmts tid n) =
      (List.range n).filter (fun i => decide (tid i = t)) := by
  intro n
  induction n with
  | zero => rfl
  | succ n ih =>
    unfold threadIters at ih ⊢
    rw [seqCountStmts, List.filter_append, List.map_append, ih, filter_range_succ]
    by_cases h : tid n = t
    · subst h; simp [iterStmts]
    · simp [iterStmts, h]

theorem perm_by_thread (tid : Nat → Fin 4) (L : List Nat) :
    ((([0, 1, 2, 3] : List (Fin 4)).flatMap fun t =>
      L.filter (fun i => decide (tid i = t)))).Perm L := by
  rw [List.perm_iff_count]
  intro x
  simp only [List.flatMap_cons, List.flatMap_nil, List.append_nil, List.count_append]
  have hc : ∀ t : Fin 4, List.count x (L.filter (fun i => decide (tid i = t))) =
      if tid x = t then List.count x L else 0 := by
    intro t
    by_cases h : tid x = t
    · rw [if_pos h]; exact List.count_filter (by simpa using h)
    · rw [if_neg h, List.count_eq_zero]
      intro hm
      exact h (by simpa using (List.mem_filter.mp hm).2)
  rw [hc 0, hc 1, hc 2, hc 3]
  have h4 : tid x = 0 ∨ tid x = 1 ∨ tid x = 2 ∨ tid x = 3 := by
    rcases tid x with ⟨v, hv⟩
    interval_cases v
    · exact Or.inl rfl
    · exact Or.inr (Or.inl rfl)
    · exact Or.inr (Or.inr (Or.inl rfl))
    · exact Or.inr (Or.inr (Or.inr rfl))
  rcases h4 with h | h | h | h <;> rw [h] <;> simp

/-- The counting loop run one iteration at a time is an execution of the loop. -/
theorem seqCount_isExecution (tid : Nat → Fin 4) (n : Nat) :
    isCountExecution n (seqCountStmts tid n) = true := by
  unfold isCountExecution
  simp only [Bool.and_eq_true, List.all_cons, List.all_nil, Bool.and_true, decide_eq_true_eq,
    seqCount_threadIters]
  exact ⟨⟨seqCount_filter tid 0 n, seqCount_filter tid 1 n, seqCount_filter tid 2 n,
    seqCount_filter tid 3 n⟩, perm_by_thread tid (List.range n)⟩

/-- The schedule that runs both parallel loops one iteration at a time is an execution
of a pass, whatever the edges and the digit position. -/
theorem seqSchedule_isExecution (tid : Nat → Fin 4) (l : List Edge) (digit : Int) (n : Nat) :
    isPassExecution l digit n (seqSchedule tid n) = true := by
  unfold isPassExecution
  simp only [seqSchedule, seqCount_isExecution, Bool.true_and, Bool.and_eq_true]
  refine ⟨by decide, ?_⟩
  have hcnt := seqCount_run tid l digit ⟨0, 0, List.replicate 40 0⟩ n
  cases hrun : runCountStmts l digit (seqCountStmts tid n) ⟨0, 0, List.replicate 40 0⟩ with
  | none => rfl
  | some cs =>
    rw [hrun] at hcnt
    have hlen : cs.vertex_cnt_t.length = 40 := by
      have := seqCountLoop_length tid l digit (List.replicate 40 0) n cs.vertex_cnt_t hcnt.symm
      rwa [List.length_replicate] at this
    simp only [seqRed_spec cs.vertex_cnt_t hlen]
    rfl

/-! ## Results on radixSortEdgesBySource -/

/-- C4: for `numVertices ≥ 1` (an `int`, so below `2^31`), an edge array of length
`numEdges` whose sources all lie in `[0, numVertices)` and an output buffer of capacity
at least `numEdges`, `radixSortEdgesBySource`, with the counting phase of every pass
run sequentially (one iteration at a time) under any assignment of iterations to the
four threads, returns and its output is ordered by source: for all `i < j < numEdges`,
`edges_sorted[i].src ≤ edges_sorted[j].src`.  These schedules are executions of the
passes by `seqSchedule_isExecution`. -/
theorem radixSort_output_ordered (tid : Nat → Nat → Fin 4) (edges_sorted edges : List Edge)
    (numVertices : Int) (hV1 : 1 ≤ numVertices) (hV : numVertices < 2147483648)
    (hsrc : ∀ e ∈ edges, 0 ≤ e.src ∧ e.src < numVertices)
    (hcap : edges.length ≤ edges_sorted.length) :
    ∃ r, radixSortEdgesBySource (seqPasses tid edges.length) edges_sorted edges numVertices
        (edges.length : Int) = some r ∧
      ∀ i j, i < j → j < edges.length →
        ∃ a b, r.edges_sorted[i]? = some a ∧ r.edges_sorted[j]? = some b ∧ a.src ≤ b.src := by
  have _ := hV1
  have hseq := radixSort_seq tid edges_sorted edges numVertices (edges.length : Int)
  rw [Int.toNat_ofNat] at hseq
  obtain ⟨out, lj, h1, h2, h3, _⟩ := radixSort_stable tid edges_sorted edges numVertices hV hsrc hcap
  exact ⟨⟨out, lj⟩, hseq.trans h1, ordered_entries out edges.length (by omega)
    (src_pairwise_of_stable edges _ (fun e he => (hsrc e he).1) h3)⟩

theorem radixSort_output_ordered_witness :
    ((1 : Int) ≤ 4 ∧ (4 : Int) < 2147483648 ∧ (∀ e ∈ sampleEdges, 0 ≤ e.src ∧ e.src < 4) ∧
      sampleEdges.length ≤ (blank 5).length) ∧
    (∃ r, radixSortEdgesBySource (seqPasses rrSched sampleEdges.length) (blank 5) sampleEdges 4
        (sampleEdges.length : Int) = some r ∧
      ∀ i j, i < j → j < sampleEdges.length →
        ∃ a b, r.edges_sorted[i]? = some a ∧ r.edges_sorted[j]? = some b ∧ a.src ≤ b.src) ∧
    isPassExecution sampleEdges 1 5 (seqPasses rrSched 5 1) = true ∧
    radixSortEdgesBySource (seqPasses rrSched 5) (blank 5) sampleEdges 4 5 =
      some ⟨sampleSorted, sampleSorted⟩ :=
  ⟨⟨by decide, by decide, by decide, by decide⟩,
    radixSort_output_ordered rrSched (blank 5) sampleEdges 4 (by decide) (by decide) (by decide)
      (by decide),
    by decide, by decide⟩

/-- C9: for every `numVertices ≥ 1` the number `d` of digit passes of
`radixSortEdgesBySource` is the number of base-10 digits of `numVertices`, that is
`d ≥ 1` and `10^(d-1) ≤ numVertices < 10^d`; under every schedule the passes are
`my_countSort` on the digit positions `1, 2, ..., d` in that order; hence every source id
below `numVertices` is below `10^d`. -/
theorem radixSort_digit_passes (sched : Nat → PassSchedule) (edges_sorted edges : List Edge)
    (numVertices numEdges : Int) (hV : 1 ≤ numVertices) :
    1 ≤ totalDigits numVertices ∧
    ((10 ^ (totalDigits numVertices - 1) : Nat) : Int) ≤ numVertices ∧
    numVertices < ((10 ^ totalDigits numVertices : Nat) : Int) ∧
    radixSortEdgesBySource sched edges_sorted edges numVertices numEdges =
      (List.range' 1 (totalDigits numVertices)).foldlM
        (fun st digi => my_countSort (sched digi) st.edges_sorted st.edges numVertices numEdges
          (digi : Int)) ⟨edges_sorted, edges⟩ ∧
    ∀ s : Int, s < numVertices → s < ((10 ^ totalDigits numVertices : Nat) : Int) := by
  obtain ⟨h1, h2, h3⟩ := totalDigits_spec numVertices hV
  exact ⟨h1, h2, h3, passLoop_eq_foldlM sched numVertices numEdges _ _, fun s hs => by omega⟩

theorem radixSort_digit_passes_witness :
    (1 : Int) ≤ 1234 ∧
    (1 ≤ totalDigits 1234 ∧
    ((10 ^ (totalDigits 1234 - 1) : Nat) : Int) ≤ 1234 ∧
    (1234 : Int) < ((10 ^ totalDigits 1234 : Nat) : Int) ∧
    radixSortEdgesBySource (seqPasses rrSched 5) (blank 5) sampleEdges 1234 5 =
      (List.range' 1 (totalDigits 1234)).foldlM
        (fun st digi => my_countSort (seqPasses rrSched 5 digi) st.edges_sorted st.edges 1234 5
          (digi : Int)) ⟨blank 5, sampleEdges⟩ ∧
    ∀ s : Int, s < 1234 → s < ((10 ^ totalDigits 1234 : Nat) : Int)) ∧
    totalDigits 1234 = 4 :=
  ⟨by decide,
    radixSort_digit_passes (seqPasses rrSched 5) (blank 5) sampleEdges 1234 5 (by decide),
    by decide⟩

/-- C11: the counting loop of `my_countSort` is not free of data races: `dig` and `key`
are shared.  On the edges `[(1,0),(2,0)]` at digit position 1, with iteration 0 on thread
0 and iteration 1 on thread 1, take the schedule in which each thread runs its three
statements in program order but thread 1 assigns `dig` between thread 0's assignment and
thread 0's read of it.  Run one iteration after the other the loop counts one edge with
digit 1 and one with digit 2; under that schedule it counts two edges with digit 2 and
none with digit 1, and the placement loop run from that table writes `edges_sorted[-1]`,
so the pass has no defined result.  The accumulator `s` of the reduction loop is shared
too: on one edge with digit 0, when thread 1 runs `s = 0` between thread 0's last
addition and its store, bucket 0 receives 0 instead of 1. -/
theorem counting_loop_shared_temporaries :
    racySchedule.filter (fun ev => decide (ev.1 = 0)) = iterStmts 0 0 ∧
    racySchedule.filter (fun ev => decide (ev.1 = 1)) = iterStmts 1 1 ∧
    (runCountStmts [mkE 1 0, mkE 2 0] 1 (iterStmts 0 0 ++ iterStmts 1 1)
        ⟨0, 0, List.replicate 40 0⟩).map (fun s => seqReduce s.vertex_cnt_t) =
      some [0, 1, 1, 0, 0, 0, 0, 0, 0, 0] ∧
    (runCountStmts [mkE 1 0, mkE 2 0] 1 racySchedule
        ⟨0, 0, List.replicate 40 0⟩).map (fun s => seqReduce s.vertex_cnt_t) =
      some [0, 0, 2, 0, 0, 0, 0, 0, 0, 0] ∧
    (forLoop cumulStep 9 [0, 0, 2, 0, 0, 0, 0, 0, 0, 0]).bind
        (fun t => forLoop (placeStep (fun e => grab_the_digit e.src 1) [mkE 1 0, mkE 2 0] 2) 2
          ⟨t, blank 2⟩) = none ∧
    isPassExecution [mkE 1 0, mkE 2 0] 1 2 racyPassA = true ∧
    my_countSort racyPassA (blank 2) [mkE 1 0, mkE 2 0] 3 2 1 = none ∧
    isPassExecution [mkE 0 5] 1 1 racyPassR = true ∧
    (runRedStmts ((List.replicate 40 0).set 0 1) seqRedStmts (redInit staticChunks)).map
        (fun st => st.shared.vertex_cnt) = some [1, 0, 0, 0, 0, 0, 0, 0, 0, 0] ∧
    (runRedStmts ((List.replicate 40 0).set 0 1) racyRedStmts (redInit staticChunks)).map
        (fun st => st.shared.vertex_cnt) = some [0, 0, 0, 0, 0, 0, 0, 0, 0, 0] := by
  decide

/-- C5 fails on the code: on the valid input `[(1,7),(2,8)]` with `numVertices = 3`,
`countSortEdgesBySource` outputs `[(1,7),(2,8)]`, while `radixSortEdgesBySource`, in the
execution of its counting loop in which thread 0 assigns `dig` between thread 1's
assignment and thread 1's read of it, returns `[(0,0),(1,7)]`: the edge `(2,8)` is lost
and the first entry is what the output buffer held before the call. -/
theorem radixSort_race_disagrees :
    (∀ e ∈ twoEdges, 0 ≤ e.src ∧ e.src < 3) ∧
    isPassExecution twoEdges 1 2 racyPassB = true ∧
    countSortEdgesBySource (blank 2) twoEdges 3 2 = some ⟨[mkE 1 7, mkE 2 8], twoEdges⟩ ∧
    radixSortEdgesBySource (fun _ => racyPassB) (blank 2) twoEdges 3 2 =
      some ⟨[mkE 0 0, mkE 1 7], [mkE 0 0, mkE 1 7]⟩ ∧
    ([mkE 1 7, mkE 2 8] : List Edge).take 2 ≠ ([mkE 0 0, mkE 1 7] : List Edge).take 2 := by
  decide

/-- C8 fails on the code: the input `[(1,7),(2,8)]` with `numVertices = 3` is valid and
already ordered by source, yet there is an execution of the counting loop of the radix
sort after which the output `[(0,0),(1,7)]` is not the input, and another after which
the placement loop writes `edges_sorted[-1]`. -/
theorem radixSort_race_not_idempotent :
    (∀ e ∈ twoEdges, 0 ≤ e.src ∧ e.src < 3) ∧
    twoEdges.Pairwise (fun a b => a.src ≤ b.src) ∧
    isPassExecution twoEdges 1 2 racyPassB = true ∧
    (radixSortEdgesBySource (fun _ => racyPassB) (blank 2) twoEdges 3 2).map
        (fun r => r.edges_sorted.take 2) = some [mkE 0 0, mkE 1 7] ∧
    ([mkE 0 0, mkE 1 7] : List Edge) ≠ twoEdges ∧
    isPassExecution twoEdges 1 2 racyPassA = true ∧
    radixSortEdgesBySource (fun _ => racyPassA) (blank 2) twoEdges 3 2 = none := by
  decide

/-- C10 fails on the code for the radix sort: with `numVertices = 1` and the single edge
`(0,5)`, `countSortEdgesBySource` returns the input, but in the execution of the reduction
loop in which thread 1 runs `s = 0` between thread 0's last addition and its store,
`vertex_cnt[0]` is 0 and the placement loop of `radixSortEdgesBySource` writes
`edges_sorted[-1]`. -/
theorem single_vertex_race :
    (∀ e ∈ [mkE 0 5], e.src = 0) ∧
    countSortEdgesBySource (blank 1) [mkE 0 5] 1 1 = some ⟨[mkE 0 5], [mkE 0 5]⟩ ∧
    isPassExecution [mkE 0 5] 1 1 racyPassR = true ∧
    totalDigits 1 = 1 ∧
    radixSortEdgesBySource (fun _ => racyPassR) (blank 1) [mkE 0 5] 1 1 = none := by
  decide

/-- C12 fails on the code: one pass of `my_countSort` at digit position 1 on the edges
`[(1,7),(2,8)]` has an execution of its counting loop after which the output
`[(0,0),(1,7)]` is not a permutation of the input, and another after which the
placement loop writes `edges_sorted[-1]`. -/
theorem pass_race_not_partition :
    (∀ e ∈ twoEdges, 0 ≤ e.src) ∧
    isPassExecution twoEdges 1 2 racyPassB = true ∧
    my_countSort racyPassB (blank 2) twoEdges 3 2 1 =
      some ⟨[mkE 0 0, mkE 1 7], [mkE 0 0, mkE 1 7]⟩ ∧
    ¬ (([mkE 0 0, mkE 1 7] : List Edge).take 2).Perm twoEdges ∧
    isPassExecution twoEdges 1 2 racyPassA = true ∧
    my_countSort racyPassA (blank 2) twoEdges 3 2 1 = none := by
  decide

/-- C14 fails on the code: for the split of the two iterations that gives iteration 0
to thread 0 and iteration 1 to thread 1, there is an execution of the counting loop on
the edges `[(1,7),(2,8)]` after which the reduction loop, run one iteration at a time,
leaves `vertex_cnt = [0,0,2,0,...]`, whereas one edge has digit 1 and one has digit 2 and
a sequential counting pass produces `[0,1,1,0,...]`. -/
theorem digit_counts_race :
    threadIters 0 racySchedule = [0] ∧ threadIters 1 racySchedule = [1] ∧
    isCountExecution 2 racySchedule = true ∧
    ((runCountStmts twoEdges 1 racySchedule ⟨0, 0, List.replicate 40 0⟩).bind
        (fun cs => runRedStmts cs.vertex_cnt_t seqRedStmts (redInit staticChunks))).map
        (fun st => st.shared.vertex_cnt) = some [0, 0, 2, 0, 0, 0, 0, 0, 0, 0] ∧
    twoEdges.countP (fun e => decide (grab_the_digit e.src 1 = 1)) = 1 ∧
    twoEdges.countP (fun e => decide (grab_the_digit e.src 1 = 2)) = 1 ∧
    forLoop (countStep (fun e => grab_the_digit e.src 1) twoEdges) 2 (List.replicate 10 0) =
      some [0, 1, 1, 0, 0, 0, 0, 0, 0, 0] := by
  decide

/-- C17 fails on the code: on the valid input `[(1,7),(2,8)]` with `numVertices = 3`
there is an execution of the counting loop after which the pass writes
`edges_sorted[-1]` and leaves no defined buffers, and another after which
`radixSortEdgesBySource` returns with both buffers holding `[(0,0),(1,7)]`, which is not
the sorted sequence of the input. -/
theorem pass_race_buffers :
    (∀ e ∈ twoEdges, 0 ≤ e.src ∧ e.src < 3) ∧
    isPassExecution twoEdges 1 2 racyPassA = true ∧
    my_countSort racyPassA (blank 2) twoEdges 3 2 1 = none ∧
    radixSortEdgesBySource (fun _ => racyPassA) (blank 2) twoEdges 3 2 = none ∧
    isPassExecution twoEdges 1 2 racyPassB = true ∧
    (radixSortEdgesBySource (fun _ => racyPassB) (blank 2) twoEdges 3 2).map
        (fun r => (r.edges_sorted, r.edges)) =
      some ([mkE 0 0, mkE 1 7], [mkE 0 0, mkE 1 7]) ∧
    ¬ ([mkE 0 0, mkE 1 7] : List Edge).Perm twoEdges := by
  decide

/-- C18 fails on the code: the single edge `(0,5)` has digit value 0 at position 1, yet
in the execution of the reduction loop in which thread 1 runs `s = 0` between thread 0's
last addition and its store the pass of `my_countSort` does not output the input: the
placement loop writes `edges_sorted[-1]`. -/
theorem same_digit_pass_race :
    (∀ e ∈ [mkE 0 5], 0 ≤ e.src ∧ grab_the_digit e.src 1 = 0) ∧
    isPassExecution [mkE 0 5] 1 1 racyPassR = true ∧
    my_countSort racyPassR (blank 1) [mkE 0 5] 1 1 1 = none ∧
    my_countSort (seqSchedule (rrSched 1) 1) (blank 1) [mkE 0 5] 1 1 1 =
      some ⟨[mkE 0 5], [mkE 0 5]⟩ := by
  decide

/-- C20 fails on the code: on `[(1,7),(2,8)]` with `numVertices = 3` (so
`total_digits = 1` and both sources are below `10`), there is an execution of the counting
loop after which `radixSortEdgesBySource` returns `[(0,0),(1,7)]`, which is not the stable
sort of the input by `src mod 10`. -/
theorem radixSort_race_key_bound :
    (∀ e ∈ twoEdges, 0 ≤ e.src ∧ e.src < ((10 ^ totalDigits 3 : Nat) : Int)) ∧
    isPassExecution twoEdges 1 2 racyPassB = true ∧
    radixSortEdgesBySource (fun _ => racyPassB) (blank 2) twoEdges 3 2 =
      some ⟨[mkE 0 0, mkE 1 7], [mkE 0 0, mkE 1 7]⟩ ∧
    ¬ StableSortedBy (fun e => e.src.toNat % 10 ^ totalDigits 3) twoEdges
      (([mkE 0 0, mkE 1 7] : List Edge).take 2) := by
  refine ⟨by decide, by decide, by decide, ?_⟩
  intro h
  exact absurd (h.2 2) (by decide)

end EdgeSort
